import Mathlib

/-!
Verification of the address module (packages/address/src.ts/index.ts).

Strings of the source are modelled as `List Char`, byte arrays as `List Nat`
(each entry a byte value `< 256`).  The external hash collaborator
(`keccak256`) is a parameter `hash : List Nat → List Nat` of every embedded
function; `HashOK hash` captures its contract (32-byte output, bytes).  A
concrete executable Keccak-256 is also provided so that the behaviour of the
code on literal inputs can be settled exactly.
-/

/-! ### ASCII character helpers -/

/-- JavaScript `toLowerCase`, restricted to ASCII (the only characters the
module feeds it). -/
def toLowerChar (c : Char) : Char :=
  if 65 ≤ c.toNat ∧ c.toNat ≤ 90 then Char.ofNat (c.toNat + 32) else c

/-- JavaScript `toUpperCase`, restricted to ASCII. -/
def toUpperChar (c : Char) : Char :=
  if 97 ≤ c.toNat ∧ c.toNat ≤ 122 then Char.ofNat (c.toNat - 32) else c

/-- `[0-9]` -/
def isDigitC (c : Char) : Bool :=
  48 ≤ c.toNat && c.toNat ≤ 57

/-- `[0-9a-fA-F]` -/
def isHexDigitC (c : Char) : Bool :=
  isDigitC c || (97 ≤ c.toNat && c.toNat ≤ 102) || (65 ≤ c.toNat && c.toNat ≤ 70)

/-- `[0-9a-f]` : a lowercase hex digit. -/
def isLowerHexC (c : Char) : Bool :=
  isDigitC c || (97 ≤ c.toNat && c.toNat ≤ 102)

/-- `[A-F]` : an uppercase hex letter (as used by the checksum regex). -/
def isUpperHexLetter (c : Char) : Bool :=
  65 ≤ c.toNat && c.toNat ≤ 70

/-- `[a-f]` : a lowercase hex letter (as used by the checksum regex). -/
def isLowerHexLetter (c : Char) : Bool :=
  97 ≤ c.toNat && c.toNat ≤ 102

/-- `[0-9A-Za-z]` -/
def isAlnumC (c : Char) : Bool :=
  isDigitC c || (65 ≤ c.toNat && c.toNat ≤ 90) || (97 ≤ c.toNat && c.toNat ≤ 122)

/-- The character for the digit value `d` (`0-9` then lowercase `a-z`),
as produced by BN.js `toString(base)`. -/
def digitCharOf (d : Nat) : Char :=
  if d < 10 then Char.ofNat (48 + d) else Char.ofNat (87 + d)

/-- The numeric value of a digit character, case-insensitive
(as parsed by `parseInt` / BN.js); `0` for other characters. -/
def charDigitVal (c : Char) : Nat :=
  if 48 ≤ c.toNat ∧ c.toNat ≤ 57 then c.toNat - 48
  else if 65 ≤ c.toNat ∧ c.toNat ≤ 90 then c.toNat - 55
  else if 97 ≤ c.toNat ∧ c.toNat ≤ 122 then c.toNat - 87
  else 0

/-- Big-endian value of a digit string in base `b`
(the value `parseInt(s, b)` computes on a valid digit string). -/
def parseBaseChars (b : Nat) (s : List Char) : Nat :=
  s.foldl (fun acc c => acc * b + charDigitVal c) 0

/-- Minimal base-`b` representation of `n` (lowercase digits, `"0"` for zero):
the string BN.js `toString(b)` / JavaScript `String(n)` produce.  Structural
recursion on a fuel argument so that the kernel can evaluate it; `n + 1` units
of fuel always suffice since `n / b < n` at every step. -/
def natToBaseCharsGo (b : Nat) : Nat → Nat → List Char
  | _, 0 => []
  | n, fuel + 1 =>
    if n < b then [digitCharOf n]
    else natToBaseCharsGo b (n / b) fuel ++ [digitCharOf (n % b)]

/-- Minimal base-`b` representation of `n`, see `natToBaseCharsGo`. -/
def natToBaseChars (b n : Nat) : List Char :=
  natToBaseCharsGo b n (n + 1)

/-- JavaScript `String(n)` for a natural number. -/
def natToDecChars (n : Nat) : List Char :=
  natToBaseChars 10 n

/-- Left-pad a string with copies of `c` up to length `n`
(the `while (s.length < n) s = c + s` idiom of the source). -/
def padLeftChars (c : Char) (n : Nat) (s : List Char) : List Char :=
  List.replicate (n - s.length) c ++ s

/-! ### Keccak-256 (the `keccak256` collaborator, bit-exact) -/

/-- 64-bit rotate left. -/
def rotl64 (x n : Nat) : Nat :=
  ((x <<< n) ||| (x >>> (64 - n))) % (2 ^ 64)

/-- Keccak round constants. -/
def keccakRC : List Nat :=
  [0x0000000000000001, 0x0000000000008082, 0x800000000000808a, 0x8000000080008000,
   0x000000000000808b, 0x0000000080000001, 0x8000000080008081, 0x8000000000008009,
   0x000000000000008a, 0x0000000000000088, 0x0000000080008009, 0x000000008000000a,
   0x000000008000808b, 0x800000000000008b, 0x8000000000008089, 0x8000000000008003,
   0x8000000000008002, 0x8000000000000080, 0x000000000000800a, 0x800000008000000a,
   0x8000000080008081, 0x8000000000008080, 0x0000000080000001, 0x8000000080008008]

/-- Combined rho/pi step: lane `i` of the new state is lane `fst` of the old
state rotated by `snd`. -/
def rhoPiTable : List (Nat × Nat) :=
  [(0,0),(6,44),(12,43),(18,21),(24,14),
   (3,28),(9,20),(10,3),(16,45),(22,61),
   (1,1),(7,6),(13,25),(19,8),(20,18),
   (4,27),(5,36),(11,10),(17,15),(23,56),
   (2,62),(8,55),(14,39),(15,41),(21,2)]

/-- One Keccak-f[1600] round on a 25-lane state (lane `x + 5 * y` at index
`x + 5 * y`). -/
def keccakRound (st : List Nat) (rc : Nat) : List Nat :=
  let a := fun i => st.getD i 0
  let c := fun x => a x ^^^ a (x + 5) ^^^ a (x + 10) ^^^ a (x + 15) ^^^ a (x + 20)
  let thetaD := fun x => c ((x + 4) % 5) ^^^ rotl64 (c ((x + 1) % 5)) 1
  let b := (List.range 25).map (fun i => a i ^^^ thetaD (i % 5))
  let p := rhoPiTable.map (fun pr => rotl64 (b.getD pr.1 0) pr.2)
  let q := fun i => p.getD i 0
  let chi := (List.range 25).map (fun i =>
    let x := i % 5
    let base := i - x
    q i ^^^ ((q (base + (x + 1) % 5) ^^^ 0xffffffffffffffff) &&& q (base + (x + 2) % 5)))
  match chi with
  | s0 :: rest => (s0 ^^^ rc) :: rest
  | [] => []

/-- The full Keccak-f[1600] permutation (24 rounds). -/
def keccakP (st : List Nat) : List Nat :=
  keccakRC.foldl keccakRound st

/-- Little-endian byte list to natural number. -/
def leBytesToNat : List Nat → Nat
  | [] => 0
  | b :: bs => b + 256 * leBytesToNat bs

/-- `k` little-endian bytes of `n`. -/
def natToLEBytes : Nat → Nat → List Nat
  | _, 0 => []
  | n, k + 1 => n % 256 :: natToLEBytes (n / 256) k

/-- XOR a 136-byte rate block into the first 17 lanes. -/
def absorbBlock (st : List Nat) (block : List Nat) : List Nat :=
  (List.range 25).map (fun i =>
    if i < 17 then st.getD i 0 ^^^ leBytesToNat ((block.drop (8 * i)).take 8)
    else st.getD i 0)

/-- Absorb a padded message 136 bytes at a time.  Fuel-structural so the
kernel can evaluate it; the message length is always enough fuel. -/
def keccakAbsorb : Nat → List Nat → List Nat → List Nat
  | 0, st, _ => st
  | _ + 1, st, [] => st
  | fuel + 1, st, blk => keccakAbsorb fuel (keccakP (absorbBlock st (blk.take 136))) (blk.drop 136)

/-- Original Keccak pad10*1 (domain byte 0x01) for rate 136. -/
def keccakPad (m : List Nat) : List Nat :=
  let pad := 136 - m.length % 136
  if pad = 1 then m ++ [0x81]
  else m ++ [0x01] ++ List.replicate (pad - 2) 0 ++ [0x80]

/-- Keccak-256 of a byte list: the `keccak256` collaborator of the module. -/
def keccak256 (m : List Nat) : List Nat :=
  let padded := keccakPad m
  let st := keccakAbsorb padded.length (List.replicate 25 0) padded
  ((List.range 4).map (fun j => natToLEBytes (st.getD j 0) 8)).flatten

/-! ### Byte/hex conversions used by the module -/

/-- Two lowercase hex characters of a byte (`('0' + (byte & 0xFF).toString(16)).slice(-2)`). -/
def byteToHexChars (b : Nat) : List Char :=
  [digitCharOf (b % 256 / 16), digitCharOf (b % 256 % 16)]

/-- The source's `toHexString`: lowercase hex of a byte array. -/
def toHexString (bs : List Nat) : List Char :=
  (bs.map byteToHexChars).flatten

/-- The source's `toByteArray`: consume two characters at a time,
`parseInt(pair, 16)`.  Exact for hex-digit characters (the only inputs the
module produces); a trailing odd character is dropped, as in the source. -/
def toByteArray : List Char → List Nat
  | c1 :: c2 :: rest => (16 * charDigitVal c1 + charDigitVal c2) :: toByteArray rest
  | _ => []

/-- ethers `stripZeros`: drop leading zero bytes. -/
def stripZeros (bs : List Nat) : List Nat :=
  bs.dropWhile (fun b => b == 0)

/-- `arrayify(BigNumber.from(n).toHexString())`: big-endian bytes of `n`,
at least one byte (`[0]` for zero). -/
def natToBEBytes (n : Nat) : List Nat :=
  let hex := natToBaseChars 16 n
  toByteArray (List.replicate (hex.length % 2) '0' ++ hex)

/-! ### Error taxonomy (spec §7) -/

/-- The validation failures the module can signal (spec error taxonomy). -/
inductive AddrError where
  | invalidAddress
  | badChecksum
  | badIcapChecksum
  | missingFromAddress
  | invalidSalt
  | invalidInitCodeHash
  | missingNonce
  | missingOrInvalidShard
deriving DecidableEq

/-- Contract of the hash collaborator: 32-byte digests. -/
def HashOK (hash : List Nat → List Nat) : Prop :=
  ∀ b, (hash b).length = 32 ∧ ∀ x ∈ hash b, x < 256

/-! ### The embedded source functions -/

/-- ethers `isHexString(address, 20)`: `"0x"` followed by exactly 40 hex
characters. -/
def isHexString20 (a : List Char) : Bool :=
  a.length == 42 && a.take 2 == ['0', 'x'] && (a.drop 2).all isHexDigitC

/-- The per-character casing loop of `getChecksumAddress`: byte `i` of the
digest decides characters `2*i` and `2*i+1` (high nibble then low nibble,
uppercase when the nibble is `≥ 8`). -/
def checksumChars : List Nat → List Char → List Char
  | h :: hs, c1 :: c2 :: cs =>
    (if 8 ≤ h / 16 then toUpperChar c1 else c1) ::
    (if 8 ≤ h % 16 then toUpperChar c2 else c2) :: checksumChars hs cs
  | _, cs => cs

/-- `getChecksumAddress` (source lines 16-42). -/
def getChecksumAddress (hash : List Nat → List Nat) (address : List Char) :
    Except AddrError (List Char) :=
  if isHexString20 address then
    let address := address.map toLowerChar
    let chars := address.drop 2
    let expanded := chars.map Char.toNat
    let hashed := hash expanded
    .ok ('0' :: 'x' :: checksumChars hashed chars)
  else .error .invalidAddress

/-- `safeDigits = Math.floor(Math.log10(0x1fffffffffffff)) = 15`. -/
def safeDigits : Nat := 15

/-- The IBAN lookup table: digits map to themselves, `A-Z` to `10-35`
(two decimal digits); other characters do not occur on the inputs the module
builds (in JavaScript they would produce `undefined`). -/
def ibanLookupChars (c : Char) : List Char :=
  if isDigitC c then [c]
  else if 65 ≤ c.toNat ∧ c.toNat ≤ 90 then natToDecChars (c.toNat - 55)
  else []

/-- The chunked mod-97 loop of `ibanChecksum`:
`while (expanded.length >= safeDigits) expanded = String(parseInt(block) % 97) + rest`.
Fuel-structural; every iteration shortens the string by at least 13, so
`expanded.length` units of fuel always reproduce the unbounded loop. -/
def chunkModGo : Nat → List Char → List Char
  | 0, e => e
  | fuel + 1, e =>
    if safeDigits ≤ e.length then
      chunkModGo fuel (natToDecChars (parseBaseChars 10 (e.take safeDigits) % 97) ++ e.drop safeDigits)
    else e

/-- `ibanChecksum` (source lines 63-79). -/
def ibanChecksum (address : List Char) : List Char :=
  let address := address.map toUpperChar
  let address := address.drop 4 ++ address.take 2 ++ ['0', '0']
  let expanded := (address.map ibanLookupChars).flatten
  let reduced := chunkModGo expanded.length expanded
  let checksum := natToDecChars (98 - parseBaseChars 10 reduced % 97)
  padLeftChars '0' 2 checksum

/-- The hex-address regex `^(0x)?[0-9a-fA-F]{40}$`. -/
def matchesHexAddr (a : List Char) : Bool :=
  (a.length == 40 && a.all isHexDigitC) ||
    (a.take 2 == ['0', 'x'] && (a.drop 2).length == 40 && (a.drop 2).all isHexDigitC)

/-- The ICAP regex `^XE[0-9]{2}[0-9A-Za-z]{30,31}$`. -/
def matchesIcap (a : List Char) : Bool :=
  match a with
  | 'X' :: 'E' :: c1 :: c2 :: rest =>
    isDigitC c1 && isDigitC c2 && rest.all isAlnumC &&
      (rest.length == 30 || rest.length == 31)
  | _ => false

/-- The mixed-case detection regex `([A-F].*[a-f])|([a-f].*[A-F])`: matches
exactly when the string holds both an uppercase and a lowercase hex letter. -/
def hasMixedCase (a : List Char) : Bool :=
  a.any isUpperHexLetter && a.any isLowerHexLetter

/-- `getAddress` (source lines 81-117).  The `_base36To16` collaborator is
the BN.js base conversion: parse base-36 (case-insensitive), print minimal
lowercase hex. -/
def getAddress (hash : List Nat → List Nat) (address : List Char) :
    Except AddrError (List Char) :=
  if matchesHexAddr address then
    let address := if address.take 2 = ['0', 'x'] then address else '0' :: 'x' :: address
    match getChecksumAddress hash address with
    | .error e => .error e
    | .ok result =>
      if hasMixedCase address ∧ result ≠ address then .error .badChecksum
      else .ok result
  else if matchesIcap address then
    if (address.drop 2).take 2 ≠ ibanChecksum address then .error .badIcapChecksum
    else
      let result := natToBaseChars 16 (parseBaseChars 36 (address.drop 4))
      let result := padLeftChars '0' 40 result
      getChecksumAddress hash ('0' :: 'x' :: result)
  else .error .invalidAddress

/-- `getIcapAddress` (source lines 127-131).  `_base16To36` is the BN.js
conversion: parse hex (case-insensitive), print minimal base-36 lowercase,
then the source uppercases it. -/
def getIcapAddress (hash : List Nat → List Nat) (address : List Char) :
    Except AddrError (List Char) :=
  match getAddress hash address with
  | .error e => .error e
  | .ok a =>
    let base36 := (natToBaseChars 36 (parseBaseChars 16 (a.drop 2))).map toUpperChar
    let base36 := padLeftChars '0' 30 base36
    .ok ('X' :: 'E' :: (ibanChecksum (['X', 'E', '0', '0'] ++ base36) ++ base36))

/-- `getContractAddress` (source lines 134-145).  The RLP collaborator is a
black-box parameter, exactly as in the spec. -/
def getContractAddress (hash : List Nat → List Nat) (rlp : List (List Nat) → List Nat)
    (fromAddr : List Char) (nonce : Nat) : Except AddrError (List Char) :=
  match getAddress hash fromAddr with
  | .error _ => .error .missingFromAddress
  | .ok fr =>
    let nonceB := stripZeros (natToBEBytes nonce)
    getAddress hash ('0' :: 'x' :: toHexString ((hash (rlp [toByteArray (fr.drop 2), nonceB])).drop 12))

/-- `getCreate2Address` (source lines 147-155). -/
def getCreate2Address (hash : List Nat → List Nat) (fromAddr : List Char)
    (salt initCodeHash : List Nat) : Except AddrError (List Char) :=
  if salt.length ≠ 32 then .error .invalidSalt
  else if initCodeHash.length ≠ 32 then .error .invalidInitCodeHash
  else
    match getAddress hash fromAddr with
    | .error e => .error e
    | .ok fr =>
      getAddress hash
        ('0' :: 'x' :: toHexString ((hash (0xff :: (toByteArray (fr.drop 2) ++ salt ++ initCodeHash))).drop 12))

/-! ### Shard table (the `ShardData` constant lives outside `src/`; entries
are modelled as records of hex-digit strings, per the spec's static table) -/

/-- One entry of the static shard table: `{shard, byte: [lo, hi]}`. -/
structure ShardEntry where
  shard : List Char
  lo : List Char
  hi : List Char
deriving DecidableEq

/-- Model of the JavaScript `Number(string)` conversion on the string shapes
this module feeds it: the empty string is `0`, `"0x"` followed by hex digits
parses as hexadecimal, a nonempty all-decimal-digit string parses as decimal,
anything else is `NaN` (`none`).  (Signs, blanks, decimal points and other
exotic `Number` inputs do not occur here.) -/
def jsNumber : List Char → Option Nat
  | [] => some 0
  | '0' :: 'x' :: rest =>
    if rest ≠ [] ∧ rest.all isHexDigitC then some (parseBaseChars 16 rest) else none
  | s => if s.all isDigitC then some (parseBaseChars 10 s) else none

/-- The filter predicate of `getShardFromAddress`:
`Number(address.substring(0, 4)) >= Number("0x" + lo) && <= Number("0x" + hi)`
(`NaN` comparisons are false). -/
def shardMatchB (address : List Char) (e : ShardEntry) : Bool :=
  match jsNumber (address.take 4), jsNumber ('0' :: 'x' :: e.lo), jsNumber ('0' :: 'x' :: e.hi) with
  | some num, some lo, some hi => decide (lo ≤ num ∧ num ≤ hi)
  | _, _, _ => false

/-- `getShardFromAddress` (source lines 221-232), over an arbitrary table. -/
def getShardFromAddress (table : List ShardEntry) (address : List Char) :
    Option (List Char) :=
  match table.filter (shardMatchB address) with
  | [] => none
  | e :: _ => some e.shard

/-- `validShard` (source lines 211-219). -/
def validShard (table : List ShardEntry) (shard : List Char) : Bool :=
  !((table.filter (fun e => e.shard == shard)).length == 0)

/-! ### The grinder (source lines 175-209) -/

/-- Modelled from the spec: the `formatBytes32String` collaborator
(`fixedSize32PaddedEncoding`, from the strings package, not under `src/`):
ASCII bytes of a short string, zero-padded on the right to 32 bytes. -/
def formatBytes32String (s : List Char) : List Nat :=
  s.map Char.toNat ++ List.replicate (32 - s.length) 0

/-- The body of the grind loop, one iteration per salt drawn from the random
stream `salts` (the `randomBytes(1)` collaborator); `ok none` when the stream
runs out (the source loops forever), `ok (some hex)` when a candidate's shard
matches.  `sendBytes` is the byte content of the sender address string. -/
def grindLoop (hash : List Nat → List Nat) (table : List ShardEntry)
    (matchShard : List Char) (sendBytes nonceBytes : List Nat)
    (bytecode : List Char) : List Nat → Except AddrError (Option (List Char))
  | [] => .ok none
  | salt :: rest =>
    let initCode := bytecode.take (bytecode.length - 2) ++ toHexString [salt]
    let contractBytes := toByteArray initCode
    let createInput := (sendBytes ++ nonceBytes) ++ contractBytes
    match getAddress hash ('0' :: 'x' :: toHexString ((hash createInput).drop 12)) with
    | .error e => .error e
    | .ok preComputedAddress =>
      match getShardFromAddress table preComputedAddress with
      | none => grindLoop hash table matchShard sendBytes nonceBytes bytecode rest
      | some shard =>
        if shard = matchShard then .ok (some (toHexString contractBytes))
        else grindLoop hash table matchShard sendBytes nonceBytes bytecode rest

/-- `grindContractAddress` (source lines 175-209): argument checks, then the
salt-grinding loop. -/
def grindContractAddress (hash : List Nat → List Nat) (table : List ShardEntry)
    (nonce : Option Nat) (matchShard : List Char) (sendBytes : List Nat)
    (bytecode : List Char) (salts : List Nat) : Except AddrError (Option (List Char)) :=
  match nonce with
  | none => .error .missingNonce
  | some n =>
    if !(validShard table matchShard) then .error .missingOrInvalidShard
    else grindLoop hash table matchShard sendBytes (formatBytes32String (natToDecChars n)) bytecode salts

/-! ### Specification-side definitions, phrased from the claims' words -/

/-- Nibble `i` of a digest: the high nibble of byte `i / 2` for even `i`,
the low nibble for odd `i` (claim C4's indexing). -/
def nibbleAt (digest : List Nat) (i : Nat) : Nat :=
  if i % 2 = 0 then digest.getD (i / 2) 0 / 16 else digest.getD (i / 2) 0 % 16

/-- Map with the character index, starting at `i`. -/
def idxMapFrom (f : Nat → Char → Char) : Nat → List Char → List Char
  | _, [] => []
  | i, c :: cs => f i c :: idxMapFrom f (i + 1) cs

/-- The claims' `mixedCaseChecksum`: lowercase hex of the 20-byte value,
hash of its ASCII codes, character `i` uppercased exactly when nibble `i`
of the digest is `≥ 8`. -/
def mixedCaseChecksumSpec (hash : List Nat → List Nat) (bytes : List Nat) : List Char :=
  let lower := toHexString bytes
  let digest := hash (lower.map Char.toNat)
  '0' :: 'x' :: idxMapFrom (fun i c => if 8 ≤ nibbleAt digest i then toUpperChar c else c) 0 lower

/-- The claims' `icapChecksum`: rotate so the `"00"` placeholder is
rightmost, expand letters to two decimal digits, and take the numeral's
value modulo 97 directly (no chunking); result is 98 minus the remainder,
zero-padded to two digits. -/
def ibanChecksumSpec (address : List Char) : List Char :=
  let address := address.map toUpperChar
  let rotated := address.drop 4 ++ address.take 2 ++ ['0', '0']
  let expanded := (rotated.map ibanLookupChars).flatten
  padLeftChars '0' 2 (natToDecChars (98 - parseBaseChars 10 expanded % 97))

/-- Claim C1's resolution rule, word for word: the first 4 hex characters of
the address read as a decimal-parsed number (`NaN`, hence no match, when they
are not all decimal digits), matched against the first entry whose closed
interval (hex-parsed bounds) contains that value. -/
def resolveShardClaim (table : List ShardEntry) (address : List Char) : Option (List Char) :=
  let hexChars := (if address.take 2 = ['0', 'x'] then address.drop 2 else address).take 4
  let num? := if hexChars ≠ [] ∧ hexChars.all isDigitC
    then some (parseBaseChars 10 hexChars) else none
  match num? with
  | none => none
  | some n =>
    (table.find? (fun e =>
      match jsNumber ('0' :: 'x' :: e.lo), jsNumber ('0' :: 'x' :: e.hi) with
      | some lo, some hi => decide (lo ≤ n ∧ n ≤ hi)
      | _, _ => false)).map ShardEntry.shard

/-- The amended resolution rule: the first table entry whose closed
hex-parsed `[lo, hi]` interval contains the byte value `b`. -/
def resolveShardAmended (table : List ShardEntry) (b : Nat) : Option (List Char) :=
  (table.find? (fun e =>
    match jsNumber ('0' :: 'x' :: e.lo), jsNumber ('0' :: 'x' :: e.hi) with
    | some lo, some hi => decide (lo ≤ b ∧ b ≤ hi)
    | _, _ => false)).map ShardEntry.shard

/-- Prefix a bare 40-character hex string with `"0x"`, as the hex path does. -/
def withHexPfx (a : List Char) : List Char :=
  if a.take 2 = ['0', 'x'] then a else '0' :: 'x' :: a

/-- A stand-in hash collaborator for concrete witnesses: constant zero digest. -/
def constHash (_ : List Nat) : List Nat :=
  List.replicate 32 0

/-- The EIP-55 test address of claim C2. -/
def addr52 : List Char :=
  "0x52908400098527886E0F7030069857D2E4169EE7".toList

/-- The shard-table entry of the spec's example. -/
def exShardTable : List ShardEntry :=
  [⟨"cyprus1".toList, "0000".toList, "1999".toList⟩]

/-- An address distinguishing the code's read (hex parse of `"0x99"`, 153)
from the claim's read (decimal parse of `"9999"`). -/
def exShardAddr : List Char :=
  "0x9999000000000000000000000000000000000000".toList

/-- The all-zero canonical address string, for concrete witnesses. -/
def zeroAddr : List Char :=
  '0' :: 'x' :: List.replicate 40 '0'

/-- The canonical checksummed string of a 40-character lowercase-hex tail:
every `ok` result of `getAddress` has this shape. -/
def canonChecksum (hash : List Nat → List Nat) (ls : List Char) : List Char :=
  '0' :: 'x' :: checksumChars (hash (ls.map Char.toNat)) ls

/-! ### Character lemmas -/

theorem char_toNat_ofNat {n : Nat} (h : n < 55296) : (Char.ofNat n).toNat = n := by
  have hv : n.isValidChar := Or.inl h
  simp only [Char.ofNat, hv, dite_true, dif_pos]
  rfl

theorem char_eq_of_toNat {a b : Char} (h : a.toNat = b.toNat) : a = b := by
  have := Char.ofNat_toNat a
  rw [← this, h, Char.ofNat_toNat]

theorem char_toNat_lt (c : Char) : c.toNat < 1114112 := by
  have := c.valid
  rcases this with h | ⟨_, h⟩
  · exact lt_trans h (by norm_num)
  · exact h

theorem toLowerChar_toNat (c : Char) :
    (toLowerChar c).toNat = if 65 ≤ c.toNat ∧ c.toNat ≤ 90 then c.toNat + 32 else c.toNat := by
  unfold toLowerChar
  split_ifs with h
  · exact char_toNat_ofNat (by omega)
  · rfl

theorem toUpperChar_toNat (c : Char) :
    (toUpperChar c).toNat = if 97 ≤ c.toNat ∧ c.toNat ≤ 122 then c.toNat - 32 else c.toNat := by
  unfold toUpperChar
  split_ifs with h
  · exact char_toNat_ofNat (by omega)
  · rfl

theorem isDigitC_iff {c : Char} : isDigitC c = true ↔ 48 ≤ c.toNat ∧ c.toNat ≤ 57 := by
  simp [isDigitC]

theorem isLowerHexC_iff {c : Char} :
    isLowerHexC c = true ↔ (48 ≤ c.toNat ∧ c.toNat ≤ 57) ∨ (97 ≤ c.toNat ∧ c.toNat ≤ 102) := by
  simp [isLowerHexC, isDigitC]

theorem isHexDigitC_iff {c : Char} :
    isHexDigitC c = true ↔ (48 ≤ c.toNat ∧ c.toNat ≤ 57) ∨ (97 ≤ c.toNat ∧ c.toNat ≤ 102) ∨
      (65 ≤ c.toNat ∧ c.toNat ≤ 70) := by
  simp [isHexDigitC, isDigitC]
  tauto

theorem isAlnumC_iff {c : Char} :
    isAlnumC c = true ↔ (48 ≤ c.toNat ∧ c.toNat ≤ 57) ∨ (65 ≤ c.toNat ∧ c.toNat ≤ 90) ∨
      (97 ≤ c.toNat ∧ c.toNat ≤ 122) := by
  simp [isAlnumC, isDigitC]
  tauto

theorem isUpperHexLetter_iff {c : Char} :
    isUpperHexLetter c = true ↔ 65 ≤ c.toNat ∧ c.toNat ≤ 70 := by
  simp [isUpperHexLetter]

theorem isLowerHexLetter_iff {c : Char} :
    isLowerHexLetter c = true ↔ 97 ≤ c.toNat ∧ c.toNat ≤ 102 := by
  simp [isLowerHexLetter]

theorem toLowerChar_of_lowerHex {c : Char} (h : isLowerHexC c = true) : toLowerChar c = c := by
  apply char_eq_of_toNat
  rw [toLowerChar_toNat]
  rcases isLowerHexC_iff.mp h with h' | h' <;> rw [if_neg (by omega)]

theorem toLower_toUpper_of_lowerHex {c : Char} (h : isLowerHexC c = true) :
    toLowerChar (toUpperChar c) = c := by
  apply char_eq_of_toNat
  rw [toLowerChar_toNat, toUpperChar_toNat]
  rcases isLowerHexC_iff.mp h with h' | h' <;> split_ifs <;> omega

theorem isHexDigitC_toUpper_of_lowerHex {c : Char} (h : isLowerHexC c = true) :
    isHexDigitC (toUpperChar c) = true := by
  rw [isHexDigitC_iff, toUpperChar_toNat]
  rcases isLowerHexC_iff.mp h with h' | h' <;> split_ifs <;> omega

theorem charDigitVal_toUpper (c : Char) : charDigitVal (toUpperChar c) = charDigitVal c := by
  unfold charDigitVal
  rw [toUpperChar_toNat]
  split_ifs <;> omega

theorem charDigitVal_toLower (c : Char) : charDigitVal (toLowerChar c) = charDigitVal c := by
  unfold charDigitVal
  rw [toLowerChar_toNat]
  split_ifs <;> omega

theorem digitCharOf_toNat {d : Nat} (h : d < 36) :
    (digitCharOf d).toNat = if d < 10 then 48 + d else 87 + d := by
  unfold digitCharOf
  split_ifs with h' <;> exact char_toNat_ofNat (by omega)

theorem charDigitVal_digitCharOf {d : Nat} (h : d < 36) : charDigitVal (digitCharOf d) = d := by
  unfold charDigitVal
  rw [digitCharOf_toNat h]
  split_ifs <;> omega

theorem isLowerHexC_digitCharOf {d : Nat} (h : d < 16) : isLowerHexC (digitCharOf d) = true := by
  rw [isLowerHexC_iff, digitCharOf_toNat (by omega)]
  split_ifs <;> omega

theorem isAlnumC_digitCharOf {d : Nat} (h : d < 36) : isAlnumC (digitCharOf d) = true := by
  rw [isAlnumC_iff, digitCharOf_toNat h]
  split_ifs <;> omega

theorem digitCharOf_charDigitVal {c : Char} (h : isLowerHexC c = true) :
    digitCharOf (charDigitVal c) = c := by
  apply char_eq_of_toNat
  unfold charDigitVal
  rcases isLowerHexC_iff.mp h with h' | h'
  · rw [if_pos (by omega), digitCharOf_toNat (by omega), if_pos (by omega)]
    omega
  · rw [if_neg (by omega), if_neg (by omega), if_pos (by omega),
      digitCharOf_toNat (by omega), if_neg (by omega)]
    omega

theorem charDigitVal_lt_16 {c : Char} (h : isHexDigitC c = true) : charDigitVal c < 16 := by
  unfold charDigitVal
  rcases isHexDigitC_iff.mp h with h' | h' | h' <;> split_ifs <;> omega

theorem charDigitVal_lt_36 {c : Char} (h : isAlnumC c = true) : charDigitVal c < 36 := by
  unfold charDigitVal
  rcases isAlnumC_iff.mp h with h' | h' | h' <;> split_ifs <;> omega

theorem charDigitVal_lt_10 {c : Char} (h : isDigitC c = true) : charDigitVal c < 10 := by
  unfold charDigitVal
  have h' := isDigitC_iff.mp h
  split_ifs <;> omega

theorem isLowerHexC_of_hex_toLower {c : Char} (h : isHexDigitC c = true) :
    isLowerHexC (toLowerChar c) = true := by
  rw [isLowerHexC_iff, toLowerChar_toNat]
  rcases isHexDigitC_iff.mp h with h' | h' | h' <;> split_ifs <;> omega

theorem charDigitVal_pos_of_ne_zero {c : Char} (hhex : isLowerHexC c = true)
    (hne : c ≠ '0') : 0 < charDigitVal c := by
  unfold charDigitVal
  have hne' : c.toNat ≠ 48 := fun h => hne (char_eq_of_toNat (by simpa using h))
  rcases isLowerHexC_iff.mp hhex with h' | h' <;> split_ifs <;> omega

/-! ### Base-conversion lemmas -/

theorem parseBaseChars_go (b : Nat) (s : List Char) (a : Nat) :
    s.foldl (fun acc c => acc * b + charDigitVal c) a =
      a * b ^ s.length + parseBaseChars b s := by
  induction s generalizing a with
  | nil => simp [parseBaseChars]
  | cons c cs ih =>
    simp only [List.foldl_cons, parseBaseChars, List.length_cons]
    rw [ih (a * b + charDigitVal c), ih (0 * b + charDigitVal c)]
    ring

theorem parseBaseChars_cons (b : Nat) (c : Char) (cs : List Char) :
    parseBaseChars b (c :: cs) = charDigitVal c * b ^ cs.length + parseBaseChars b cs := by
  show List.foldl _ _ (c :: cs) = _
  rw [List.foldl_cons, parseBaseChars_go]
  ring_nf

theorem parseBaseChars_append (b : Nat) (s t : List Char) :
    parseBaseChars b (s ++ t) = parseBaseChars b s * b ^ t.length + parseBaseChars b t := by
  show List.foldl _ _ (s ++ t) = _
  rw [List.foldl_append, parseBaseChars_go]
  rfl

theorem parseBaseChars_lt {b : Nat} (hb : 1 ≤ b) {s : List Char}
    (h : ∀ c ∈ s, charDigitVal c < b) : parseBaseChars b s < b ^ s.length := by
  induction s with
  | nil => simp [parseBaseChars]
  | cons c cs ih =>
    rw [parseBaseChars_cons, List.length_cons, pow_succ]
    have h1 : charDigitVal c < b := h c (List.mem_cons_self _ _)
    have h2 : parseBaseChars b cs < b ^ cs.length := ih (fun x hx => h x (List.mem_cons_of_mem _ hx))
    have h3 : (charDigitVal c + 1) * b ^ cs.length = charDigitVal c * b ^ cs.length + b ^ cs.length := by
      ring
    have h4 : (charDigitVal c + 1) * b ^ cs.length ≤ b ^ cs.length * b := by
      rw [mul_comm]
      exact Nat.mul_le_mul_left _ (by omega)
    omega

theorem parseBaseChars_map_toUpper (b : Nat) (s : List Char) :
    parseBaseChars b (s.map toUpperChar) = parseBaseChars b s := by
  induction s with
  | nil => rfl
  | cons c cs ih =>
    rw [List.map_cons, parseBaseChars_cons, parseBaseChars_cons, charDigitVal_toUpper, ih,
      List.length_map]

theorem parseBaseChars_replicate_zero (b k : Nat) (s : List Char) :
    parseBaseChars b (List.replicate k '0' ++ s) = parseBaseChars b s := by
  rw [parseBaseChars_append]
  have : parseBaseChars b (List.replicate k '0') = 0 := by
    induction k with
    | zero => rfl
    | succ n ih =>
      rw [List.replicate_succ, parseBaseChars_cons, ih]
      have : charDigitVal '0' = 0 := by decide
      simp [this]
  rw [this]
  ring_nf

theorem parseBaseChars_eq_ofDigits_rev (b : Nat) (s : List Char) :
    parseBaseChars b s = Nat.ofDigits b ((s.map charDigitVal).reverse) := by
  induction s with
  | nil => rfl
  | cons c cs ih =>
    rw [parseBaseChars_cons, List.map_cons, List.reverse_cons, Nat.ofDigits_append, ih]
    simp [Nat.ofDigits]
    ring

theorem natToBaseCharsGo_eq_digits {b : Nat} (hb : 2 ≤ b) :
    ∀ fuel n, n ≠ 0 → n ≤ fuel →
      natToBaseCharsGo b n fuel = (Nat.digits b n).reverse.map digitCharOf := by
  intro fuel
  induction fuel with
  | zero => intro n h1 h2; omega
  | succ f ih =>
    intro n h1 h2
    rw [natToBaseCharsGo]
    split_ifs with hlt
    · rw [Nat.digits_def' (by omega : 1 < b) (by omega : 0 < n)]
      rw [Nat.mod_eq_of_lt hlt, Nat.div_eq_of_lt hlt, Nat.digits_zero]
      rfl
    · have hdivne : n / b ≠ 0 := by
        have : b ≤ n := by omega
        have := Nat.one_le_div_iff (by omega : 0 < b) |>.mpr this
        omega
      have hdivle : n / b ≤ f := by
        have : n / b < n := Nat.div_lt_self (by omega) (by omega)
        omega
      rw [ih (n / b) hdivne hdivle]
      rw [Nat.digits_def' (by omega : 1 < b) (by omega : 0 < n)]
      simp

theorem natToBaseChars_eq_digits {b : Nat} (hb : 2 ≤ b) {n : Nat} (hn : n ≠ 0) :
    natToBaseChars b n = (Nat.digits b n).reverse.map digitCharOf :=
  natToBaseCharsGo_eq_digits hb (n + 1) n hn (by omega)

theorem natToBaseChars_zero (b : Nat) (hb : 2 ≤ b) : natToBaseChars b 0 = ['0'] := by
  unfold natToBaseChars natToBaseCharsGo
  rw [if_pos (by omega)]
  rfl

theorem parse_rev_map_digitCharOf {b : Nat} (hb : 2 ≤ b) (hb36 : b ≤ 36) {ds : List Nat}
    (h : ∀ d ∈ ds, d < b) :
    parseBaseChars b ((ds.reverse).map digitCharOf) = Nat.ofDigits b ds := by
  induction ds with
  | nil => rfl
  | cons d ds ih =>
    rw [List.reverse_cons, List.map_append, parseBaseChars_append,
      ih (fun x hx => h x (List.mem_cons_of_mem _ hx))]
    have hd : d < b := h d (List.mem_cons_self _ _)
    have hsing : parseBaseChars b (List.map digitCharOf [d]) = d := by
      simp [parseBaseChars, charDigitVal_digitCharOf (show d < 36 by omega)]
    rw [hsing]
    simp [Nat.ofDigits_cons]
    ring

theorem parse_natToBaseChars {b : Nat} (hb : 2 ≤ b) (hb36 : b ≤ 36) (n : Nat) :
    parseBaseChars b (natToBaseChars b n) = n := by
  by_cases hn : n = 0
  · subst hn
    rw [natToBaseChars_zero b hb]
    have : charDigitVal '0' = 0 := by decide
    simp [parseBaseChars, this]
  · rw [natToBaseChars_eq_digits hb hn,
      parse_rev_map_digitCharOf hb hb36 (fun d hd => Nat.digits_lt_base (by omega) hd),
      Nat.ofDigits_digits]

theorem natToBaseChars_length_le {b : Nat} (hb : 2 ≤ b) {n k : Nat} (hk : 1 ≤ k)
    (h : n < b ^ k) : (natToBaseChars b n).length ≤ k := by
  by_cases hn : n = 0
  · subst hn
    rw [natToBaseChars_zero b hb]
    simpa using hk
  · rw [natToBaseChars_eq_digits hb hn]
    rw [List.length_map, List.length_reverse]
    by_contra hcon
    push_neg at hcon
    have hlen : k + 1 ≤ (Nat.digits b n).length := hcon
    have h1 : b ^ (Nat.digits b n).length ≤ b * n :=
      Nat.base_pow_length_digits_le b n (by omega) hn
    have h2 : b ^ (k + 1) ≤ b ^ (Nat.digits b n).length :=
      Nat.pow_le_pow_right (by omega) hlen
    rw [pow_succ] at h2
    have h3 : b ^ k * b ≤ b * n := le_trans h2 h1
    rw [mul_comm] at h3
    have h4 : b ^ k ≤ n := Nat.le_of_mul_le_mul_left h3 (by omega)
    omega

theorem natToBaseChars_mem {b : Nat} (hb : 2 ≤ b) (n : Nat) :
    ∀ c ∈ natToBaseChars b n, ∃ d, d < b ∧ c = digitCharOf d := by
  by_cases hn : n = 0
  · subst hn
    rw [natToBaseChars_zero b hb]
    intro c hc
    simp at hc
    refine ⟨0, by omega, ?_⟩
    rw [hc]
    decide
  · rw [natToBaseChars_eq_digits hb hn]
    intro c hc
    rw [List.mem_map] at hc
    obtain ⟨d, hd, hcd⟩ := hc
    rw [List.mem_reverse] at hd
    exact ⟨d, Nat.digits_lt_base (by omega) hd, hcd.symm⟩

theorem natToBaseChars_canonical_inverse {b : Nat} (hb : 2 ≤ b) (hb36 : b ≤ 36)
    {ls : List Char} (hne : ls ≠ [])
    (hval : ∀ c ∈ ls, charDigitVal c < b)
    (hcanon : ∀ c ∈ ls, digitCharOf (charDigitVal c) = c)
    (hhead : ls.head hne ≠ '0') :
    natToBaseChars b (parseBaseChars b ls) = ls := by
  set ds : List Nat := (ls.map charDigitVal).reverse with hds
  have hparse : parseBaseChars b ls = Nat.ofDigits b ds := parseBaseChars_eq_ofDigits_rev b ls
  have hdsne : ds ≠ [] := by
    simp [hds]
    exact hne
  have hlast : ∀ h : ds ≠ [], ds.getLast h ≠ 0 := by
    intro h
    rcases ls with _ | ⟨c, cs⟩
    · exact absurd rfl hne
    · have hcv : charDigitVal c ≠ 0 := by
        intro h0
        apply hhead
        have hcan := hcanon c (List.mem_cons_self _ _)
        rw [h0] at hcan
        have hd0 : digitCharOf 0 = '0' := by decide
        rw [hd0] at hcan
        exact hcan.symm
      have hds' : ds = (List.map charDigitVal cs).reverse ++ [charDigitVal c] := by
        simp [hds]
      have : ds.getLast h = charDigitVal c := by
        have hgl := List.getLast_append_singleton
          (a := charDigitVal c) ((List.map charDigitVal cs).reverse)
        calc ds.getLast h
            = ((List.map charDigitVal cs).reverse ++ [charDigitVal c]).getLast (by simp) := by
              congr 1
          _ = charDigitVal c := hgl
      rw [this]
      exact hcv
  have hdslt : ∀ d ∈ ds, d < b := by
    intro d hd
    rw [hds, List.mem_reverse, List.mem_map] at hd
    obtain ⟨c, hc, hcd⟩ := hd
    rw [← hcd]
    exact hval c hc
  have hdig : Nat.digits b (Nat.ofDigits b ds) = ds :=
    Nat.digits_ofDigits b (by omega) ds hdslt hlast
  have hofne : Nat.ofDigits b ds ≠ 0 := by
    intro h0
    rw [h0] at hdig
    rw [Nat.digits_zero] at hdig
    exact hdsne hdig.symm
  rw [hparse, natToBaseChars_eq_digits hb hofne, hdig, hds, List.reverse_reverse,
    List.map_map]
  have : ∀ c ∈ ls, (digitCharOf ∘ charDigitVal) c = id c := fun c hc => hcanon c hc
  rw [List.map_congr_left this, List.map_id]

theorem padLeftChars_succ {c : Char} {n : Nat} {s : List Char} (h : s.length ≤ n) :
    padLeftChars c (n + 1) s = c :: padLeftChars c n s := by
  unfold padLeftChars
  have : n + 1 - s.length = (n - s.length) + 1 := by omega
  rw [this, List.replicate_succ]
  rfl

theorem padLeftChars_length_le {c : Char} {n : Nat} {s : List Char} :
    s.length ≤ (padLeftChars c n s).length := by
  unfold padLeftChars
  simp

theorem padLeftChars_of_length_eq {c : Char} {n : Nat} {s : List Char} (h : s.length = n) :
    padLeftChars c n s = s := by
  unfold padLeftChars
  rw [h]
  simp

theorem padLeft_natToBase_parse {b : Nat} (hb : 2 ≤ b) (hb36 : b ≤ 36) :
    ∀ {ls : List Char}, ls ≠ [] →
      (∀ c ∈ ls, charDigitVal c < b) →
      (∀ c ∈ ls, digitCharOf (charDigitVal c) = c) →
      padLeftChars '0' ls.length (natToBaseChars b (parseBaseChars b ls)) = ls := by
  intro ls
  induction ls with
  | nil => intro h; exact absurd rfl h
  | cons c cs ih =>
    intro _ hval hcanon
    by_cases hc0 : c = '0'
    · subst hc0
      have hvz : charDigitVal '0' = 0 := by decide
      have hparse : parseBaseChars b ('0' :: cs) = parseBaseChars b cs := by
        rw [parseBaseChars_cons, hvz]
        ring_nf
      rcases cs with _ | ⟨d, ds⟩
      · have : parseBaseChars b ['0'] = 0 := by
          simp [parseBaseChars, hvz]
        rw [this, natToBaseChars_zero b hb]
        rfl
      · have hcsne : d :: ds ≠ [] := by simp
        have ihres := ih hcsne (fun x hx => hval x (List.mem_cons_of_mem _ hx))
          (fun x hx => hcanon x (List.mem_cons_of_mem _ hx))
        rw [hparse, List.length_cons]
        have hlenle : (natToBaseChars b (parseBaseChars b (d :: ds))).length ≤ (d :: ds).length := by
          have hlen := congrArg List.length ihres
          simp only [padLeftChars, List.length_append, List.length_replicate] at hlen
          omega
        rw [padLeftChars_succ hlenle, ihres]
    · have hcanon' := hcanon
      have := natToBaseChars_canonical_inverse hb hb36 (by simp : c :: cs ≠ [])
        hval hcanon (by simpa using hc0)
      rw [this]
      exact padLeftChars_of_length_eq rfl

/-! ### Hex-string/byte-array lemmas -/

theorem toHexString_cons (b : Nat) (bs : List Nat) :
    toHexString (b :: bs) =
      digitCharOf (b % 256 / 16) :: digitCharOf (b % 256 % 16) :: toHexString bs := by
  simp [toHexString, byteToHexChars]

theorem toHexString_append (a b : List Nat) :
    toHexString (a ++ b) = toHexString a ++ toHexString b := by
  simp [toHexString]

theorem toHexString_length (bs : List Nat) : (toHexString bs).length = 2 * bs.length := by
  induction bs with
  | nil => rfl
  | cons b bs ih =>
    rw [toHexString_cons]
    simp only [List.length_cons, ih]
    ring

theorem toHexString_mem_lowerHex (bs : List Nat) :
    ∀ c ∈ toHexString bs, isLowerHexC c = true := by
  induction bs with
  | nil => intro c hc; cases hc
  | cons b bs ih =>
    rw [toHexString_cons]
    intro c hc
    rcases hc with _ | ⟨_, hc⟩
    · exact isLowerHexC_digitCharOf (Nat.div_lt_of_lt_mul (by omega : b % 256 < 16 * 16))
    · rcases hc with _ | ⟨_, hc⟩
      · exact isLowerHexC_digitCharOf (Nat.mod_lt _ (by omega))
      · exact ih c hc

theorem toByteArray_toHexString {bs : List Nat} (h : ∀ b ∈ bs, b < 256) :
    toByteArray (toHexString bs) = bs := by
  induction bs with
  | nil => rfl
  | cons b bs ih =>
    rw [toHexString_cons, toByteArray]
    have hb : b < 256 := h b (List.mem_cons_self _ _)
    have h1 : b % 256 / 16 < 36 := by omega
    have h2 : b % 256 % 16 < 36 := by omega
    rw [charDigitVal_digitCharOf h1, charDigitVal_digitCharOf h2,
      ih (fun x hx => h x (List.mem_cons_of_mem _ hx))]
    congr 1
    omega

theorem toHexString_toByteArray :
    ∀ {ls : List Char}, (∀ c ∈ ls, isLowerHexC c = true) → ls.length % 2 = 0 →
      toHexString (toByteArray ls) = ls := by
  intro ls
  induction ls using toByteArray.induct with
  | case1 c1 c2 rest ih =>
    intro hhex heven
    rw [toByteArray, toHexString_cons]
    have hm1 : isLowerHexC c1 = true := hhex c1 (List.mem_cons_self _ _)
    have hm2 : isLowerHexC c2 = true := hhex c2 (List.mem_cons_of_mem _ (List.mem_cons_self _ _))
    have hv1 : charDigitVal c1 < 16 := by
      rcases isLowerHexC_iff.mp hm1 with h | h <;> unfold charDigitVal <;> split_ifs <;> omega
    have hv2 : charDigitVal c2 < 16 := by
      rcases isLowerHexC_iff.mp hm2 with h | h <;> unfold charDigitVal <;> split_ifs <;> omega
    have hval : 16 * charDigitVal c1 + charDigitVal c2 < 256 := by omega
    have hmod : (16 * charDigitVal c1 + charDigitVal c2) % 256 =
        16 * charDigitVal c1 + charDigitVal c2 := Nat.mod_eq_of_lt hval
    rw [hmod]
    have hdiv : (16 * charDigitVal c1 + charDigitVal c2) / 16 = charDigitVal c1 := by omega
    have hmod16 : (16 * charDigitVal c1 + charDigitVal c2) % 16 = charDigitVal c2 := by omega
    rw [hdiv, hmod16, digitCharOf_charDigitVal hm1, digitCharOf_charDigitVal hm2]
    have hrest : ∀ c ∈ rest, isLowerHexC c = true := fun c hc =>
      hhex c (List.mem_cons_of_mem _ (List.mem_cons_of_mem _ hc))
    have hreste : rest.length % 2 = 0 := by
      simp only [List.length_cons] at heven
      omega
    rw [ih hrest hreste]
  | case2 ls h =>
    intro hhex heven
    rcases ls with _ | ⟨c1, _ | ⟨c2, rest⟩⟩
    · rfl
    · simp at heven
    · exact absurd rfl (fun he => h c1 c2 rest he)

/-! ### Checksum-casing lemmas -/

theorem map_toLower_id_of_lowerHex {ls : List Char} (h : ∀ c ∈ ls, isLowerHexC c = true) :
    ls.map toLowerChar = ls := by
  induction ls with
  | nil => rfl
  | cons c cs ih =>
    rw [List.map_cons, toLowerChar_of_lowerHex (h c (List.mem_cons_self _ _)),
      ih (fun x hx => h x (List.mem_cons_of_mem _ hx))]

theorem checksumChars_map_toLower :
    ∀ (d : List Nat) {ls : List Char}, (∀ c ∈ ls, isLowerHexC c = true) →
      (checksumChars d ls).map toLowerChar = ls := by
  intro d ls
  induction d, ls using checksumChars.induct with
  | case1 h hs c1 c2 cs ih =>
    intro hhex
    rw [checksumChars, List.map_cons, List.map_cons]
    have hm1 : isLowerHexC c1 = true := hhex c1 (List.mem_cons_self _ _)
    have hm2 : isLowerHexC c2 = true := hhex c2 (List.mem_cons_of_mem _ (List.mem_cons_self _ _))
    have e1 : toLowerChar (if 8 ≤ h / 16 then toUpperChar c1 else c1) = c1 := by
      split_ifs
      · exact toLower_toUpper_of_lowerHex hm1
      · exact toLowerChar_of_lowerHex hm1
    have e2 : toLowerChar (if 8 ≤ h % 16 then toUpperChar c2 else c2) = c2 := by
      split_ifs
      · exact toLower_toUpper_of_lowerHex hm2
      · exact toLowerChar_of_lowerHex hm2
    rw [e1, e2, ih (fun c hc => hhex c (List.mem_cons_of_mem _ (List.mem_cons_of_mem _ hc)))]
  | case2 d ls h =>
    intro hhex
    have : checksumChars d ls = ls := by
      rw [checksumChars.eq_def]
      rcases d with _ | ⟨x, xs⟩
      · rfl
      · rcases ls with _ | ⟨c1, _ | ⟨c2, cs⟩⟩
        · rfl
        · rfl
        · exact absurd rfl (fun he => h x xs c1 c2 cs rfl he)
    rw [this]
    exact map_toLower_id_of_lowerHex hhex

theorem checksumChars_mem_hex :
    ∀ (d : List Nat) {ls : List Char}, (∀ c ∈ ls, isLowerHexC c = true) →
      ∀ c ∈ checksumChars d ls, isHexDigitC c = true := by
  intro d ls
  induction d, ls using checksumChars.induct with
  | case1 h hs c1 c2 cs ih =>
    intro hhex c hc
    rw [checksumChars] at hc
    have hm1 : isLowerHexC c1 = true := hhex c1 (List.mem_cons_self _ _)
    have hm2 : isLowerHexC c2 = true := hhex c2 (List.mem_cons_of_mem _ (List.mem_cons_self _ _))
    have hexOf : ∀ {x : Char}, isLowerHexC x = true → isHexDigitC x = true := by
      intro x hx
      rw [isHexDigitC_iff]
      rcases isLowerHexC_iff.mp hx with h' | h'
      · exact Or.inl h'
      · exact Or.inr (Or.inl h')
    rcases hc with _ | ⟨_, hc⟩
    · split_ifs
      · exact isHexDigitC_toUpper_of_lowerHex hm1
      · exact hexOf hm1
    · rcases hc with _ | ⟨_, hc⟩
      · split_ifs
        · exact isHexDigitC_toUpper_of_lowerHex hm2
        · exact hexOf hm2
      · exact ih (fun x hx => hhex x (List.mem_cons_of_mem _ (List.mem_cons_of_mem _ hx))) c hc
  | case2 d ls h =>
    intro hhex c hc
    have heq : checksumChars d ls = ls := by
      rw [checksumChars.eq_def]
      rcases d with _ | ⟨x, xs⟩
      · rfl
      · rcases ls with _ | ⟨c1, _ | ⟨c2, cs⟩⟩
        · rfl
        · rfl
        · exact absurd rfl (fun he => h x xs c1 c2 cs rfl he)
    rw [heq] at hc
    rw [isHexDigitC_iff]
    rcases isLowerHexC_iff.mp (hhex c hc) with h' | h'
    · exact Or.inl h'
    · exact Or.inr (Or.inl h')

theorem checksumChars_length :
    ∀ (d : List Nat) (ls : List Char), (checksumChars d ls).length = ls.length := by
  intro d ls
  induction d, ls using checksumChars.induct with
  | case1 h hs c1 c2 cs ih =>
    rw [checksumChars]
    simp only [List.length_cons, ih]
  | case2 d ls h =>
    have heq : checksumChars d ls = ls := by
      rw [checksumChars.eq_def]
      rcases d with _ | ⟨x, xs⟩
      · rfl
      · rcases ls with _ | ⟨c1, _ | ⟨c2, cs⟩⟩
        · rfl
        · rfl
        · exact absurd rfl (fun he => h x xs c1 c2 cs rfl he)
    rw [heq]

theorem nibbleAt_cons_zero (h : Nat) (hs : List Nat) : nibbleAt (h :: hs) 0 = h / 16 := by
  simp [nibbleAt]

theorem nibbleAt_cons_one (h : Nat) (hs : List Nat) : nibbleAt (h :: hs) 1 = h % 16 := by
  simp [nibbleAt]

theorem nibbleAt_cons_add_two (h : Nat) (hs : List Nat) (i : Nat) :
    nibbleAt (h :: hs) (i + 2) = nibbleAt hs i := by
  unfold nibbleAt
  have hmod : (i + 2) % 2 = i % 2 := by omega
  have hdiv : (i + 2) / 2 = i / 2 + 1 := by omega
  rw [hmod, hdiv, List.getD_cons_succ]

theorem idxMapFrom_shift_two (h : Nat) (hs : List Nat) :
    ∀ (cs : List Char) (i : Nat),
      idxMapFrom (fun j c => if 8 ≤ nibbleAt (h :: hs) j then toUpperChar c else c) (i + 2) cs =
        idxMapFrom (fun j c => if 8 ≤ nibbleAt hs j then toUpperChar c else c) i cs := by
  intro cs
  induction cs with
  | nil => intro i; rfl
  | cons c cs ih =>
    intro i
    rw [idxMapFrom, idxMapFrom, nibbleAt_cons_add_two]
    have : i + 2 + 1 = (i + 1) + 2 := by omega
    rw [this, ih (i + 1)]

theorem checksumChars_eq_idxMap :
    ∀ (d : List Nat) (ls : List Char), ls.length % 2 = 0 → ls.length ≤ 2 * d.length →
      checksumChars d ls =
        idxMapFrom (fun i c => if 8 ≤ nibbleAt d i then toUpperChar c else c) 0 ls := by
  intro d ls
  induction d, ls using checksumChars.induct with
  | case1 h hs c1 c2 cs ih =>
    intro heven hle
    rw [checksumChars, idxMapFrom, idxMapFrom, nibbleAt_cons_zero, nibbleAt_cons_one]
    have h2 : (0 : Nat) + 1 + 1 = 0 + 2 := by omega
    rw [h2, idxMapFrom_shift_two]
    have heven' : cs.length % 2 = 0 := by
      simp only [List.length_cons] at heven
      omega
    have hle' : cs.length ≤ 2 * hs.length := by
      simp only [List.length_cons] at hle
      omega
    rw [ih heven' hle']
  | case2 d ls h =>
    intro heven hle
    rcases d with _ | ⟨x, xs⟩
    · have hl0 : ls.length = 0 := by
        simp only [List.length_nil] at hle
        omega
      rcases ls with _ | ⟨c, cs⟩
      · rfl
      · simp at hl0
    · rcases ls with _ | ⟨c1, _ | ⟨c2, cs⟩⟩
      · rfl
      · simp at heven
      · exact absurd rfl (fun he => h x xs c1 c2 cs rfl he)

/-! ### Structure of `getChecksumAddress` and `getAddress` results -/

theorem isLowerHexC_isHexDigitC {c : Char} (h : isLowerHexC c = true) :
    isHexDigitC c = true := by
  rw [isHexDigitC_iff]
  rcases isLowerHexC_iff.mp h with h' | h'
  · exact Or.inl h'
  · exact Or.inr (Or.inl h')

theorem isHexString20_intro {ls : List Char} (hlen : ls.length = 40)
    (hhex : ∀ c ∈ ls, isHexDigitC c = true) : isHexString20 ('0' :: 'x' :: ls) = true := by
  simp [isHexString20, hlen, List.all_eq_true]
  exact hhex

theorem isHexString20_elim {a : List Char} (h : isHexString20 a = true) :
    a.length = 42 ∧ a.take 2 = ['0', 'x'] ∧ ∀ c ∈ a.drop 2, isHexDigitC c = true := by
  simp only [isHexString20, Bool.and_eq_true, beq_iff_eq, List.all_eq_true] at h
  exact ⟨h.1.1, h.1.2, h.2⟩

theorem getChecksumAddress_ok (hash : List Nat → List Nat) {ls : List Char}
    (hlen : ls.length = 40) (hhex : ∀ c ∈ ls, isHexDigitC c = true) :
    getChecksumAddress hash ('0' :: 'x' :: ls) = .ok (canonChecksum hash (ls.map toLowerChar)) := by
  unfold getChecksumAddress
  rw [if_pos (isHexString20_intro hlen hhex)]
  have hmap : ('0' :: 'x' :: ls).map toLowerChar = '0' :: 'x' :: ls.map toLowerChar := by
    rw [List.map_cons, List.map_cons]
    rw [show toLowerChar '0' = '0' from by decide, show toLowerChar 'x' = 'x' from by decide]
  rw [hmap]
  rfl

theorem getChecksumAddress_shape {hash : List Nat → List Nat} {a r : List Char}
    (h : getChecksumAddress hash a = .ok r) :
    ((a.drop 2).map toLowerChar).length = 40 ∧
      (∀ c ∈ (a.drop 2).map toLowerChar, isLowerHexC c = true) ∧
      r = canonChecksum hash ((a.drop 2).map toLowerChar) := by
  unfold getChecksumAddress at h
  by_cases hv : isHexString20 a = true
  · rw [if_pos hv] at h
    obtain ⟨hlen, htake, hhex⟩ := isHexString20_elim hv
    have hdlen : (a.drop 2).length = 40 := by
      rw [List.length_drop, hlen]
    refine ⟨by rw [List.length_map, hdlen], ?_, ?_⟩
    · intro c hc
      rw [List.mem_map] at hc
      obtain ⟨x, hx, hcx⟩ := hc
      rw [← hcx]
      exact isLowerHexC_of_hex_toLower (hhex x hx)
    · injection h with h'
      rw [← h']
      simp only [canonChecksum, List.map_drop]
  · rw [if_neg hv] at h
    cases h

theorem getChecksumAddress_canon (hash : List Nat → List Nat) (d : List Nat) {ls : List Char}
    (hlen : ls.length = 40) (hhex : ∀ c ∈ ls, isLowerHexC c = true) :
    getChecksumAddress hash ('0' :: 'x' :: checksumChars d ls) = .ok (canonChecksum hash ls) := by
  have h1 := @getChecksumAddress_ok hash (checksumChars d ls)
    (by rw [checksumChars_length, hlen]) (checksumChars_mem_hex d hhex)
  rw [h1, checksumChars_map_toLower d hhex]

theorem matchesHexAddr_pfx {ls : List Char} (hlen : ls.length = 40)
    (hhex : ∀ c ∈ ls, isHexDigitC c = true) : matchesHexAddr ('0' :: 'x' :: ls) = true := by
  simp only [matchesHexAddr, Bool.or_eq_true, Bool.and_eq_true, beq_iff_eq, List.all_eq_true]
  right
  refine ⟨⟨rfl, by simp [hlen]⟩, ?_⟩
  intro c hc
  exact hhex c (by simpa using hc)

theorem hasMixedCase_pfx_lower {ls : List Char} (hhex : ∀ c ∈ ls, isLowerHexC c = true) :
    hasMixedCase ('0' :: 'x' :: ls) = false := by
  simp only [hasMixedCase, Bool.and_eq_false_iff]
  left
  simp only [List.any_cons, Bool.or_eq_false_iff]
  refine ⟨by decide, by decide, ?_⟩
  rw [List.any_eq_false]
  intro c hc
  intro hu
  have h1 := isUpperHexLetter_iff.mp hu
  rcases isLowerHexC_iff.mp (hhex c hc) with h' | h' <;> omega

theorem getAddress_lower40 (hash : List Nat → List Nat) {ls : List Char}
    (hlen : ls.length = 40) (hhex : ∀ c ∈ ls, isLowerHexC c = true) :
    getAddress hash ('0' :: 'x' :: ls) = .ok (canonChecksum hash ls) := by
  unfold getAddress
  rw [if_pos (matchesHexAddr_pfx hlen (fun c hc => isLowerHexC_isHexDigitC (hhex c hc)))]
  have htake : ('0' :: 'x' :: ls).take 2 = ['0', 'x'] := rfl
  rw [if_pos htake]
  dsimp only
  rw [getChecksumAddress_ok hash hlen (fun c hc => isLowerHexC_isHexDigitC (hhex c hc)),
    map_toLower_id_of_lowerHex hhex]
  simp [hasMixedCase_pfx_lower hhex]

theorem getAddress_of_canon (hash : List Nat → List Nat) {ls : List Char}
    (hlen : ls.length = 40) (hhex : ∀ c ∈ ls, isLowerHexC c = true) :
    getAddress hash (canonChecksum hash ls) = .ok (canonChecksum hash ls) := by
  unfold getAddress
  have hm : matchesHexAddr ('0' :: 'x' :: checksumChars (hash (ls.map Char.toNat)) ls) = true :=
    matchesHexAddr_pfx (by rw [checksumChars_length, hlen])
      (checksumChars_mem_hex _ hhex)
  rw [show canonChecksum hash ls =
    '0' :: 'x' :: checksumChars (hash (ls.map Char.toNat)) ls from rfl]
  rw [if_pos hm]
  have htake : ('0' :: 'x' :: checksumChars (hash (ls.map Char.toNat)) ls).take 2 = ['0', 'x'] := rfl
  rw [if_pos htake]
  dsimp only
  rw [getChecksumAddress_canon hash _ hlen hhex]
  simp [canonChecksum]

theorem getAddress_shape {hash : List Nat → List Nat} {a r : List Char}
    (h : getAddress hash a = .ok r) :
    ∃ ls, ls.length = 40 ∧ (∀ c ∈ ls, isLowerHexC c = true) ∧ r = canonChecksum hash ls := by
  unfold getAddress at h
  by_cases hm : matchesHexAddr a = true
  · rw [if_pos hm] at h
    dsimp only at h
    rcases hgc : getChecksumAddress hash
        (if a.take 2 = ['0', 'x'] then a else '0' :: 'x' :: a) with e | res
    · rw [hgc] at h
      cases h
    · rw [hgc] at h
      obtain ⟨hlen, hlow, hshape⟩ := getChecksumAddress_shape hgc
      dsimp only at h
      split_ifs at h
      all_goals try cases h
      all_goals try (injection h with h'; exact ⟨_, hlen, hlow, by rw [← h', hshape]⟩)
      all_goals exact ⟨_, hlen, hlow, hshape⟩
  · rw [if_neg hm] at h
    by_cases hic : matchesIcap a = true
    · rw [if_pos hic] at h
      by_cases hiban : (a.drop 2).take 2 ≠ ibanChecksum a
      · rw [if_pos hiban] at h
        cases h
      · rw [if_neg hiban] at h
        dsimp only at h
        obtain ⟨hlen, hlow, hshape⟩ := getChecksumAddress_shape h
        exact ⟨_, hlen, hlow, hshape⟩
    · rw [if_neg hic] at h
      cases h

/-! ### Relating the code checksum to the claims' nibble description -/

theorem canonChecksum_eq_spec {hash : List Nat → List Nat} (hh : HashOK hash)
    {ls : List Char} (hlen : ls.length = 40) (hhex : ∀ c ∈ ls, isLowerHexC c = true) :
    canonChecksum hash ls = mixedCaseChecksumSpec hash (toByteArray ls) := by
  unfold mixedCaseChecksumSpec
  have hround : toHexString (toByteArray ls) = ls :=
    toHexString_toByteArray hhex (by rw [hlen])
  rw [hround]
  unfold canonChecksum
  rw [checksumChars_eq_idxMap (hash (ls.map Char.toNat)) ls (by rw [hlen])
    (by rw [hlen, (hh (ls.map Char.toNat)).1]; omega)]

theorem constHash_ok : HashOK constHash := by
  intro b
  refine ⟨by simp [constHash], ?_⟩
  intro x hx
  rw [constHash] at hx
  rw [List.eq_of_mem_replicate hx]
  omega

/-- C4: for every 20-byte value, `getChecksumAddress` on its hex string returns
`"0x"` plus the 40 lowercase hex characters, with character `i` uppercased
exactly when nibble `i` of the digest of the 40 lowercase ASCII characters is
`≥ 8` (high nibble of byte `i/2` for even `i`, low nibble for odd `i`); as a
Lean function it is a deterministic pure function of the input. -/
theorem c4_mixed_case_checksum (hash : List Nat → List Nat) (bytes : List Nat)
    (hh : HashOK hash) (hlen : bytes.length = 20) (hbytes : ∀ b ∈ bytes, b < 256) :
    getChecksumAddress hash ('0' :: 'x' :: toHexString bytes) =
      .ok (mixedCaseChecksumSpec hash bytes) := by
  have hlen40 : (toHexString bytes).length = 40 := by
    rw [toHexString_length, hlen]
  have hhexlow : ∀ c ∈ toHexString bytes, isLowerHexC c = true := toHexString_mem_lowerHex bytes
  rw [getChecksumAddress_ok hash hlen40 (fun c hc => isLowerHexC_isHexDigitC (hhexlow c hc)),
    map_toLower_id_of_lowerHex hhexlow,
    canonChecksum_eq_spec hh hlen40 hhexlow,
    toByteArray_toHexString hbytes]

/-- Witness for C4 at a concrete hash collaborator and byte value. -/
theorem c4_mixed_case_checksum_witness :
    getChecksumAddress constHash ('0' :: 'x' :: toHexString (List.replicate 20 0)) =
      .ok (mixedCaseChecksumSpec constHash (List.replicate 20 0)) :=
  c4_mixed_case_checksum constHash (List.replicate 20 0) constHash_ok (by simp)
    (fun b hb => by rw [List.eq_of_mem_replicate hb]; omega)

/-! ### The hex path of `getAddress` -/

theorem matchesHexAddr_elim {a : List Char} (h : matchesHexAddr a = true) :
    ∃ tl, withHexPfx a = '0' :: 'x' :: tl ∧ tl.length = 40 ∧
      ∀ c ∈ tl, isHexDigitC c = true := by
  simp only [matchesHexAddr, Bool.or_eq_true, Bool.and_eq_true, beq_iff_eq,
    List.all_eq_true] at h
  rcases h with ⟨⟨hlen, hhex⟩⟩ | ⟨⟨htake, hlen⟩, hhex⟩
  · refine ⟨a, ?_, hlen, hhex⟩
    unfold withHexPfx
    rw [if_neg]
    intro htk
    rcases a with _ | ⟨c1, _ | ⟨c2, rest⟩⟩
    · simp at hlen
    · simp at hlen
    · simp only [List.take, List.cons.injEq] at htk
      have hx : c2 = 'x' := htk.2.1
      have := hhex c2 (List.mem_cons_of_mem _ (List.mem_cons_self _ _))
      rw [hx] at this
      rw [isHexDigitC_iff] at this
      revert this
      decide
  · refine ⟨a.drop 2, ?_, by rw [List.length_drop] at hlen ⊢; omega, hhex⟩
    unfold withHexPfx
    rw [if_pos htake]
    conv_lhs => rw [← List.take_append_drop 2 a]
    rw [htake]
    rfl

theorem withHexPfx_no_upper {a : List Char} (h : ∀ c ∈ a, isUpperHexLetter c = false) :
    ∀ c ∈ withHexPfx a, isUpperHexLetter c = false := by
  intro c hc
  unfold withHexPfx at hc
  split_ifs at hc
  · exact h c hc
  · rcases hc with _ | ⟨_, hc⟩
    · decide
    · rcases hc with _ | ⟨_, hc⟩
      · decide
      · exact h c hc

theorem withHexPfx_no_lower {a : List Char} (h : ∀ c ∈ a, isLowerHexLetter c = false) :
    ∀ c ∈ withHexPfx a, isLowerHexLetter c = false := by
  intro c hc
  unfold withHexPfx at hc
  split_ifs at hc
  · exact h c hc
  · rcases hc with _ | ⟨_, hc⟩
    · decide
    · rcases hc with _ | ⟨_, hc⟩
      · decide
      · exact h c hc

theorem hasMixedCase_false_of_no_upper {a : List Char}
    (h : ∀ c ∈ a, isUpperHexLetter c = false) : hasMixedCase a = false := by
  simp only [hasMixedCase, Bool.and_eq_false_iff]
  left
  rw [List.any_eq_false]
  intro c hc hu
  rw [h c hc] at hu
  cases hu

theorem hasMixedCase_false_of_no_lower {a : List Char}
    (h : ∀ c ∈ a, isLowerHexLetter c = false) : hasMixedCase a = false := by
  simp only [hasMixedCase, Bool.and_eq_false_iff]
  right
  rw [List.any_eq_false]
  intro c hc hu
  rw [h c hc] at hu
  cases hu

/-- C3: a 40-hex-digit input (optional `"0x"`) whose letters are uniformly
lowercase or uniformly uppercase is accepted by `getAddress` for every hash
collaborator, regardless of whether its casing matches the computed checksum,
and the result is the checksum-mixed-case form of the same 20-byte value. -/
theorem c3_uniform_case_accepted (hash : List Nat → List Nat) (input : List Char)
    (hh : HashOK hash) (hm : matchesHexAddr input = true)
    (hcase : (∀ c ∈ input, isUpperHexLetter c = false) ∨
      (∀ c ∈ input, isLowerHexLetter c = false)) :
    getAddress hash input =
      .ok (mixedCaseChecksumSpec hash
        (toByteArray (((withHexPfx input).drop 2).map toLowerChar))) := by
  obtain ⟨tl, hpfx, htlen, hthex⟩ := matchesHexAddr_elim hm
  have hmix : hasMixedCase (withHexPfx input) = false := by
    rcases hcase with hcase | hcase
    · exact hasMixedCase_false_of_no_upper (withHexPfx_no_upper hcase)
    · exact hasMixedCase_false_of_no_lower (withHexPfx_no_lower hcase)
  unfold getAddress
  rw [if_pos hm]
  dsimp only
  have hifeq : (if input.take 2 = ['0', 'x'] then input else '0' :: 'x' :: input) =
      withHexPfx input := rfl
  rw [hifeq]
  rw [hpfx] at hmix
  rw [hpfx]
  rw [getChecksumAddress_ok hash htlen hthex]
  rw [hmix]
  have hlow : ∀ c ∈ tl.map toLowerChar, isLowerHexC c = true := by
    intro c hc
    rw [List.mem_map] at hc
    obtain ⟨x, hx, hcx⟩ := hc
    rw [← hcx]
    exact isLowerHexC_of_hex_toLower (hthex x hx)
  have hlowlen : (tl.map toLowerChar).length = 40 := by
    rw [List.length_map, htlen]
  simp only [false_and, if_false, Bool.false_eq_true]
  rw [canonChecksum_eq_spec hh hlowlen hlow]
  rfl

/-- Witness for C3: an all-uppercase 40-hex-digit string whose casing cannot
match the computed checksum of the stand-in hash (which uppercases nothing),
still accepted. -/
theorem c3_uniform_case_accepted_witness :
    getAddress constHash "ABCDEF0123456789ABCDEF0123456789ABCDEF01".toList =
      .ok (mixedCaseChecksumSpec constHash
        (toByteArray (((withHexPfx "ABCDEF0123456789ABCDEF0123456789ABCDEF01".toList).drop 2).map
          toLowerChar))) :=
  c3_uniform_case_accepted constHash _ constHash_ok (by decide) (Or.inr (by decide))

theorem getAddress_hex_shape {hash : List Nat → List Nat} {input r : List Char}
    (hm : matchesHexAddr input = true) (h : getAddress hash input = .ok r) :
    r = canonChecksum hash (((withHexPfx input).drop 2).map toLowerChar) := by
  unfold getAddress at h
  rw [if_pos hm] at h
  dsimp only at h
  rcases hgc : getChecksumAddress hash
      (if input.take 2 = ['0', 'x'] then input else '0' :: 'x' :: input) with e | res
  · rw [hgc] at h
    cases h
  · rw [hgc] at h
    obtain ⟨_, _, hshape⟩ := getChecksumAddress_shape hgc
    dsimp only at h
    split_ifs at h
    all_goals try cases h
    all_goals try (injection h with h'; rw [← h', hshape]; rfl)
    all_goals rw [hshape]
    all_goals rfl

/-- C10: on the hex path, `getAddress` only changes letter casing: lowercasing
the returned string gives the (prefixed) lowercased input, so the underlying
20-byte value is preserved. -/
theorem c10_case_only_changed (hash : List Nat → List Nat) (input r : List Char)
    (hm : matchesHexAddr input = true) (h : getAddress hash input = .ok r) :
    r.map toLowerChar = (withHexPfx input).map toLowerChar := by
  obtain ⟨tl, hpfx, htlen, hthex⟩ := matchesHexAddr_elim hm
  have hshape := getAddress_hex_shape hm h
  rw [hpfx] at hshape
  have hlow : ∀ c ∈ tl.map toLowerChar, isLowerHexC c = true := by
    intro c hc
    rw [List.mem_map] at hc
    obtain ⟨x, hx, hcx⟩ := hc
    rw [← hcx]
    exact isLowerHexC_of_hex_toLower (hthex x hx)
  rw [hshape, hpfx]
  show ('0' :: 'x' :: checksumChars _ (tl.map toLowerChar)).map toLowerChar = _
  rw [List.map_cons, List.map_cons, List.map_cons, List.map_cons]
  rw [checksumChars_map_toLower _ hlow]

/-- Witness for C10 at a concrete hash and input. -/
theorem c10_case_only_changed_witness :
    ("0x0123456789012345678901234567890123456789".toList).map toLowerChar =
      (withHexPfx "0123456789012345678901234567890123456789".toList).map toLowerChar :=
  c10_case_only_changed constHash "0123456789012345678901234567890123456789".toList
    "0x0123456789012345678901234567890123456789".toList (by decide) (by rfl)

/-! ### C2: the spec's BadChecksum example is in fact accepted -/

set_option maxRecDepth 100000 in
/-- C2 counterexample: `getAddress` with the real Keccak-256 does not fail on
`"0x52908400098527886E0F7030069857D2E4169EE7"`; the claim says it fails with
`BadChecksum`. -/
theorem c2_counterexample : getAddress keccak256 addr52 ≠ Except.error AddrError.badChecksum := by
  have hok : getAddress keccak256 addr52 = .ok addr52 := by rfl
  rw [hok]
  intro hcon
  cases hcon

set_option maxRecDepth 100000 in
/-- C2 amended: the address is all-uppercase, so the uniform-case rule applies
and `getAddress` accepts it; its casing moreover coincides with the computed
checksum, so it is returned unchanged. -/
theorem c2_amended_accepted : getAddress keccak256 addr52 = Except.ok addr52 := by
  rfl

/-! ### C1: shard resolution -/

theorem find?_congr_pred {α : Type} (p q : α → Bool) (l : List α)
    (h : ∀ x ∈ l, p x = q x) : l.find? p = l.find? q := by
  induction l with
  | nil => rfl
  | cons x xs ih =>
    rw [List.find?_cons, List.find?_cons, h x (List.mem_cons_self _ _)]
    cases hq : q x
    · exact ih (fun y hy => h y (List.mem_cons_of_mem _ hy))
    · rfl

theorem getShardFromAddress_eq_find? (table : List ShardEntry) (address : List Char) :
    getShardFromAddress table address =
      (table.find? (shardMatchB address)).map ShardEntry.shard := by
  unfold getShardFromAddress
  induction table with
  | nil => rfl
  | cons e es ih =>
    rw [List.filter_cons, List.find?_cons]
    cases hp : shardMatchB address e
    · simp only [Bool.false_eq_true, if_false, cond_false]
      exact ih
    · simp only [if_true, cond_true]
      rfl

theorem jsNumber_hex_pair {d1 d2 : Char} (h1 : isHexDigitC d1 = true)
    (h2 : isHexDigitC d2 = true) :
    jsNumber ['0', 'x', d1, d2] = some (16 * charDigitVal d1 + charDigitVal d2) := by
  show (if [d1, d2] ≠ [] ∧ [d1, d2].all isHexDigitC then
    some (parseBaseChars 16 [d1, d2]) else none) = _
  rw [if_pos (by simp [h1, h2])]
  congr 1
  rw [parseBaseChars_cons, parseBaseChars_cons]
  simp [parseBaseChars]
  ring

/-- C1 amended: for a `"0x"`-prefixed address, `getShardFromAddress` reads the
first four characters with JavaScript `Number`, which hex-parses the first two
hex digits — the first byte, 0-255 — rather than decimal-parsing the first
four hex characters, and returns the first table entry whose closed hex-parsed
interval contains that byte value. -/
theorem c1_amended_resolution (table : List ShardEntry) (d1 d2 : Char) (rest : List Char)
    (h1 : isHexDigitC d1 = true) (h2 : isHexDigitC d2 = true) :
    getShardFromAddress table ('0' :: 'x' :: d1 :: d2 :: rest) =
      resolveShardAmended table (16 * charDigitVal d1 + charDigitVal d2) := by
  rw [getShardFromAddress_eq_find?]
  unfold resolveShardAmended
  congr 1
  apply find?_congr_pred
  intro e _
  unfold shardMatchB
  have htake : ('0' :: 'x' :: d1 :: d2 :: rest).take 4 = ['0', 'x', d1, d2] := rfl
  rw [htake, jsNumber_hex_pair h1 h2]
  cases jsNumber ('0' :: 'x' :: e.lo) <;> cases jsNumber ('0' :: 'x' :: e.hi) <;> rfl

/-- Witness for C1's amended theorem at the spec's example table and a
concrete address. -/
theorem c1_amended_resolution_witness :
    getShardFromAddress exShardTable exShardAddr =
      resolveShardAmended exShardTable (16 * charDigitVal '9' + charDigitVal '9') :=
  c1_amended_resolution exShardTable '9' '9'
    "99000000000000000000000000000000000000".toList (by decide) (by decide)

/-- C1 counterexample: on the spec's example table, the code resolves
`"0x9999…"` to `cyprus1` (hex parse of `"0x99"`, 153), while the claim's
decimal read of the first four hex characters (9999) matches no entry. -/
theorem c1_counterexample :
    getShardFromAddress exShardTable exShardAddr = some "cyprus1".toList ∧
      resolveShardClaim exShardTable exShardAddr = none := by
  constructor
  · rfl
  · rfl

/-! ### C6 and C7: contract-address derivation -/

theorem getAddress_digest (hash : List Nat → List Nat) (hh : HashOK hash) (input : List Nat) :
    getAddress hash ('0' :: 'x' :: toHexString ((hash input).drop 12)) =
      .ok (mixedCaseChecksumSpec hash ((hash input).drop 12)) := by
  have hlen : ((hash input).drop 12).length = 20 := by
    rw [List.length_drop, (hh input).1]
  have hlt : ∀ b ∈ (hash input).drop 12, b < 256 := fun b hb =>
    (hh input).2 b (List.mem_of_mem_drop hb)
  have h40 : (toHexString ((hash input).drop 12)).length = 40 := by
    rw [toHexString_length, hlen]
  rw [getAddress_lower40 hash h40 (toHexString_mem_lowerHex _),
    canonChecksum_eq_spec hh h40 (toHexString_mem_lowerHex _),
    toByteArray_toHexString hlt]

/-- C6: `getContractAddress` fails with `MissingFromAddress` when `from` is
not a valid address; otherwise it strips leading zero bytes from the
big-endian encoding of the nonce, RLP-encodes the pair of the from-address
bytes and the trimmed nonce bytes, hashes the encoding, takes the last 20 of
the 32 digest bytes and returns them as a canonical checksummed address. -/
theorem c6_create_address (hash : List Nat → List Nat) (rlp : List (List Nat) → List Nat)
    (fromAddr : List Char) (nonce : Nat) (hh : HashOK hash) :
    (∀ e, getAddress hash fromAddr = .error e →
      getContractAddress hash rlp fromAddr nonce = .error .missingFromAddress) ∧
    (∀ fr, getAddress hash fromAddr = .ok fr →
      getContractAddress hash rlp fromAddr nonce =
        .ok (mixedCaseChecksumSpec hash
          ((hash (rlp [toByteArray (fr.drop 2), stripZeros (natToBEBytes nonce)])).drop 12))) := by
  constructor
  · intro e he
    unfold getContractAddress
    rw [he]
  · intro fr hfr
    unfold getContractAddress
    rw [hfr]
    dsimp only
    exact getAddress_digest hash hh _

/-- Witness for C6: the invalid-from failure and the derivation formula at a
concrete hash, RLP stand-in, sender and nonce. -/
theorem c6_create_address_witness :
    getContractAddress constHash (fun l => l.flatten) "zz".toList 0 =
        .error AddrError.missingFromAddress ∧
      getContractAddress constHash (fun l => l.flatten) zeroAddr 0 =
        .ok (mixedCaseChecksumSpec constHash
          ((constHash ((fun (l : List (List Nat)) => l.flatten)
            [toByteArray (zeroAddr.drop 2), stripZeros (natToBEBytes 0)])).drop 12)) :=
  ⟨(c6_create_address constHash (fun l => l.flatten) "zz".toList 0 constHash_ok).1
      AddrError.invalidAddress (by rfl),
   (c6_create_address constHash (fun l => l.flatten) zeroAddr 0 constHash_ok).2
      zeroAddr (by rfl)⟩

/-- C7 amended: `getCreate2Address` fails with `InvalidSalt` whenever the salt
is not exactly 32 bytes; when the salt is 32 bytes it fails with
`InvalidInitCodeHash` whenever the init-code hash is not exactly 32 bytes (the
salt check runs first, so a bad salt masks a bad init-code hash); and for a
valid from address and exactly-32-byte salt and init-code hash it returns the
address built from the low 20 bytes of the hash of `0xff`, the 20 from-bytes,
the salt and the init-code hash. -/
theorem c7_create2_checks (hash : List Nat → List Nat) (fromAddr : List Char)
    (salt initCodeHash : List Nat) (hh : HashOK hash) :
    (salt.length ≠ 32 →
      getCreate2Address hash fromAddr salt initCodeHash = .error .invalidSalt) ∧
    (salt.length = 32 → initCodeHash.length ≠ 32 →
      getCreate2Address hash fromAddr salt initCodeHash = .error .invalidInitCodeHash) ∧
    (∀ fr, salt.length = 32 → initCodeHash.length = 32 → getAddress hash fromAddr = .ok fr →
      getCreate2Address hash fromAddr salt initCodeHash =
        .ok (mixedCaseChecksumSpec hash
          ((hash (0xff :: (toByteArray (fr.drop 2) ++ salt ++ initCodeHash))).drop 12))) := by
  refine ⟨?_, ?_, ?_⟩
  · intro hs
    unfold getCreate2Address
    rw [if_pos hs]
  · intro hs hi
    unfold getCreate2Address
    rw [if_neg (by omega), if_pos hi]
  · intro fr hs hi hfr
    unfold getCreate2Address
    rw [if_neg (by omega), if_neg (by omega), hfr]
    dsimp only
    exact getAddress_digest hash hh _

/-- Witness for C7's amended theorem: 31-byte salt, 33-byte init-code hash,
and the success case, at a concrete hash and sender. -/
theorem c7_create2_checks_witness :
    getCreate2Address constHash zeroAddr (List.replicate 31 0) (List.replicate 32 0) =
        .error AddrError.invalidSalt ∧
      getCreate2Address constHash zeroAddr (List.replicate 32 0) (List.replicate 33 0) =
        .error AddrError.invalidInitCodeHash ∧
      getCreate2Address constHash zeroAddr (List.replicate 32 0) (List.replicate 32 0) =
        .ok (mixedCaseChecksumSpec constHash
          ((constHash (0xff :: (toByteArray (zeroAddr.drop 2) ++ List.replicate 32 0 ++
            List.replicate 32 0))).drop 12)) :=
  ⟨(c7_create2_checks constHash zeroAddr (List.replicate 31 0) (List.replicate 32 0)
      constHash_ok).1 (by decide),
   (c7_create2_checks constHash zeroAddr (List.replicate 32 0) (List.replicate 33 0)
      constHash_ok).2.1 (by decide) (by decide),
   (c7_create2_checks constHash zeroAddr (List.replicate 32 0) (List.replicate 32 0)
      constHash_ok).2.2 zeroAddr (by decide) (by decide) (by rfl)⟩

/-- C7 counterexample: with a 31-byte salt and a 33-byte init-code hash the
call fails with `InvalidSalt`, not `InvalidInitCodeHash`, so the claim's
unconditional "fails with InvalidInitCodeHash whenever initCodeHash is not
exactly 32 bytes" is false (the salt check masks it). -/
theorem c7_counterexample :
    getCreate2Address constHash zeroAddr (List.replicate 31 0) (List.replicate 33 0) =
        .error AddrError.invalidSalt ∧
      getCreate2Address constHash zeroAddr (List.replicate 31 0) (List.replicate 33 0) ≠
        .error AddrError.invalidInitCodeHash := by
  refine ⟨rfl, ?_⟩
  intro h
  rw [show getCreate2Address constHash zeroAddr (List.replicate 31 0) (List.replicate 33 0) =
    .error AddrError.invalidSalt from rfl] at h
  injection h with h2
  cases h2

/-! ### C8: the chunked mod-97 reduction computes the true remainder -/

theorem natToDecChars_digits (n : Nat) : ∀ c ∈ natToDecChars n, isDigitC c = true := by
  intro c hc
  obtain ⟨d, hd, hcd⟩ := natToBaseChars_mem (by omega : 2 ≤ 10) n c hc
  rw [hcd, isDigitC_iff, digitCharOf_toNat (by omega), if_pos hd]
  omega

theorem parse_natToDecChars (n : Nat) : parseBaseChars 10 (natToDecChars n) = n :=
  parse_natToBaseChars (by omega) (by omega) n

theorem chunkModGo_spec :
    ∀ (fuel : Nat) (e : List Char), (∀ c ∈ e, isDigitC c = true) →
      (∀ c ∈ chunkModGo fuel e, isDigitC c = true) ∧
        parseBaseChars 10 (chunkModGo fuel e) % 97 = parseBaseChars 10 e % 97 := by
  intro fuel
  induction fuel with
  | zero => exact fun e he => ⟨he, rfl⟩
  | succ f ih =>
    intro e he
    rw [chunkModGo]
    split_ifs with hlen
    · have htd : ∀ c ∈ natToDecChars (parseBaseChars 10 (e.take safeDigits) % 97) ++
          e.drop safeDigits, isDigitC c = true := by
        intro c hc
        rw [List.mem_append] at hc
        rcases hc with hc | hc
        · exact natToDecChars_digits _ c hc
        · exact he c (List.mem_of_mem_drop hc)
      obtain ⟨hd, hp⟩ := ih _ htd
      refine ⟨hd, ?_⟩
      rw [hp, parseBaseChars_append, parse_natToDecChars]
      conv_rhs => rw [← List.take_append_drop safeDigits e, parseBaseChars_append]
      have hmeq : (parseBaseChars 10 (e.take safeDigits) % 97) ≡
          parseBaseChars 10 (e.take safeDigits) [MOD 97] := Nat.mod_modEq _ _
      exact (hmeq.mul_right _).add_right _
    · exact ⟨he, rfl⟩

/-- C8: `ibanChecksum` equals the direct description: rotate the string so the
`"00"` placeholder is rightmost, expand letters to two decimal digits, take
the numeral's value modulo 97 (the chunked prefix-replacement loop computes
exactly this), and return 98 minus the remainder, zero-padded to two digits. -/
theorem c8_iban_checksum (address : List Char)
    (halnum : ∀ c ∈ address, isAlnumC c = true) :
    ibanChecksum address = ibanChecksumSpec address := by
  unfold ibanChecksum ibanChecksumSpec
  dsimp only
  have hdig : ∀ c ∈ (((address.map toUpperChar).drop 4 ++ (address.map toUpperChar).take 2 ++
      ['0', '0']).map ibanLookupChars).flatten, isDigitC c = true := by
    intro c hc
    rw [List.mem_flatten] at hc
    obtain ⟨l, hl, hcl⟩ := hc
    rw [List.mem_map] at hl
    obtain ⟨r, hr, hlr⟩ := hl
    have hrcase : isDigitC r = true ∨ (65 ≤ r.toNat ∧ r.toNat ≤ 90) := by
      rw [List.mem_append] at hr
      rcases hr with hr | hr
      · have hru : r ∈ address.map toUpperChar := by
          rcases List.mem_append.mp hr with h' | h'
          · exact List.mem_of_mem_drop h'
          · exact List.mem_of_mem_take h'
        rw [List.mem_map] at hru
        obtain ⟨c0, hc0, hrc0⟩ := hru
        have := isAlnumC_iff.mp (halnum c0 hc0)
        rw [← hrc0, isDigitC_iff, toUpperChar_toNat]
        rcases this with h' | h' | h' <;> split_ifs <;> omega
      · left
        rcases hr with _ | ⟨_, hr⟩
        · decide
        · rcases hr with _ | ⟨_, hr⟩
          · decide
          · cases hr
    rw [← hlr] at hcl
    unfold ibanLookupChars at hcl
    rcases hrcase with hcase | hcase
    · rw [if_pos hcase] at hcl
      rcases hcl with _ | ⟨_, hcl⟩
      · exact hcase
      · cases hcl
    · rw [if_neg (by
          intro hd
          rw [isDigitC_iff] at hd
          omega), if_pos hcase] at hcl
      exact natToDecChars_digits _ c hcl
  obtain ⟨_, hp⟩ := chunkModGo_spec _ _ hdig
  rw [hp]

/-- Witness for C8 at a concrete ICAP string. -/
theorem c8_iban_checksum_witness :
    ibanChecksum "XE00ETHXREGGAVOFYORK".toList =
      ibanChecksumSpec "XE00ETHXREGGAVOFYORK".toList :=
  c8_iban_checksum "XE00ETHXREGGAVOFYORK".toList (by decide)

/-! ### C9: the grinder returns the salted bytecode of a matching candidate -/

theorem initCode_roundtrip {bytecode : List Char} (hbhex : ∀ c ∈ bytecode, isLowerHexC c = true)
    (hbeven : bytecode.length % 2 = 0) (s : Nat) :
    toHexString (toByteArray (bytecode.take (bytecode.length - 2) ++ toHexString [s])) =
      bytecode.take (bytecode.length - 2) ++ toHexString [s] := by
  apply toHexString_toByteArray
  · intro c hc
    rcases List.mem_append.mp hc with hc | hc
    · exact hbhex c (List.mem_of_mem_take hc)
    · exact toHexString_mem_lowerHex _ c hc
  · rw [List.length_append, List.length_take, toHexString_length]
    simp only [List.length_cons, List.length_nil]
    omega

theorem grindLoop_found (hash : List Nat → List Nat) (table : List ShardEntry)
    (matchShard : List Char) (sendBytes nonceBytes : List Nat) (bytecode : List Char)
    (hh : HashOK hash) (hbhex : ∀ c ∈ bytecode, isLowerHexC c = true)
    (hbeven : bytecode.length % 2 = 0) :
    ∀ (salts : List Nat) (hex : List Char), (∀ s ∈ salts, s < 256) →
      grindLoop hash table matchShard sendBytes nonceBytes bytecode salts = .ok (some hex) →
      ∃ s, s < 256 ∧ hex = bytecode.take (bytecode.length - 2) ++ toHexString [s] ∧
        ∃ addr, getAddress hash ('0' :: 'x' :: toHexString
            ((hash ((sendBytes ++ nonceBytes) ++ toByteArray hex)).drop 12)) = .ok addr ∧
          getShardFromAddress table addr = some matchShard := by
  intro salts
  induction salts with
  | nil =>
    intro hex _ hres
    rw [grindLoop] at hres
    injection hres with hres'
    cases hres'
  | cons s rest ih =>
    intro hex hsalts hres
    rw [grindLoop] at hres
    rw [getAddress_digest hash hh] at hres
    dsimp only at hres
    rcases hshard : getShardFromAddress table (mixedCaseChecksumSpec hash
        ((hash ((sendBytes ++ nonceBytes) ++
          toByteArray (bytecode.take (bytecode.length - 2) ++ toHexString [s]))).drop 12))
      with _ | sh
    · rw [hshard] at hres
      exact ih hex (fun x hx => hsalts x (List.mem_cons_of_mem _ hx)) hres
    · rw [hshard] at hres
      dsimp only at hres
      split_ifs at hres with hmatch
      · injection hres with hres'
        injection hres' with hres''
        refine ⟨s, hsalts s (List.mem_cons_self _ _), ?_, ?_⟩
        · rw [← hres'', initCode_roundtrip hbhex hbeven]
        · refine ⟨mixedCaseChecksumSpec hash
            ((hash ((sendBytes ++ nonceBytes) ++
              toByteArray (bytecode.take (bytecode.length - 2) ++ toHexString [s]))).drop 12),
            ?_, ?_⟩
          · rw [← hres'', initCode_roundtrip hbhex hbeven]
            exact getAddress_digest hash hh _
          · rw [hshard, hmatch]
      · exact ih hex (fun x hx => hsalts x (List.mem_cons_of_mem _ hx)) hres

/-- C9: whenever `grindContractAddress` returns an init code (defined nonce,
target shard in the table), the returned hex equals the input bytecode with
its last byte replaced by the hex encoding of the accepted one-byte salt, and
the candidate address derived from the sender bytes, the 32-byte nonce
encoding and that returned init code resolves to exactly the target shard;
and a candidate whose shard is `none` is skipped without error. -/
theorem c9_grind_accepts_matching_salt (hash : List Nat → List Nat) (table : List ShardEntry)
    (matchShard : List Char) (sendBytes : List Nat) (nonce : Nat) (bytecode : List Char)
    (hh : HashOK hash) (hbhex : ∀ c ∈ bytecode, isLowerHexC c = true)
    (hbeven : bytecode.length % 2 = 0) :
    (∀ (salts : List Nat) (hex : List Char), (∀ s ∈ salts, s < 256) →
      grindContractAddress hash table (some nonce) matchShard sendBytes bytecode salts =
        .ok (some hex) →
      ∃ s, s < 256 ∧ hex = bytecode.take (bytecode.length - 2) ++ toHexString [s] ∧
        ∃ addr, getAddress hash ('0' :: 'x' :: toHexString
            ((hash ((sendBytes ++ formatBytes32String (natToDecChars nonce)) ++
              toByteArray hex)).drop 12)) = .ok addr ∧
          getShardFromAddress table addr = some matchShard) ∧
    (∀ (nonceBytes : List Nat) (salt : Nat) (rest : List Nat),
      getShardFromAddress table (mixedCaseChecksumSpec hash
        ((hash ((sendBytes ++ nonceBytes) ++
          toByteArray (bytecode.take (bytecode.length - 2) ++ toHexString [salt]))).drop 12)) =
        none →
      grindLoop hash table matchShard sendBytes nonceBytes bytecode (salt :: rest) =
        grindLoop hash table matchShard sendBytes nonceBytes bytecode rest) := by
  constructor
  · intro salts hex hsalts hres
    unfold grindContractAddress at hres
    dsimp only at hres
    by_cases hvalid : validShard table matchShard = true
    · rw [if_neg (by rw [hvalid]; decide)] at hres
      exact grindLoop_found hash table matchShard sendBytes _ bytecode hh hbhex hbeven
        salts hex hsalts hres
    · rw [if_pos (by simp [Bool.not_eq_true] at hvalid ⊢; exact hvalid)] at hres
      cases hres
  · intro nonceBytes salt rest hnone
    rw [grindLoop]
    rw [getAddress_digest hash hh]
    dsimp only
    rw [hnone]

/-- Witness for C9: a found salt on the spec's example table, and a skipped
candidate on an empty table. -/
theorem c9_grind_accepts_matching_salt_witness :
    (∃ s, s < 256 ∧
      "ab05".toList = "abcd".toList.take ("abcd".toList.length - 2) ++ toHexString [s] ∧
      ∃ addr, getAddress constHash ('0' :: 'x' :: toHexString
          ((constHash (([] ++ formatBytes32String (natToDecChars 0)) ++
            toByteArray "ab05".toList)).drop 12)) = .ok addr ∧
        getShardFromAddress exShardTable addr = some "cyprus1".toList) ∧
    grindLoop constHash [] "cyprus1".toList [] (formatBytes32String (natToDecChars 0))
        "abcd".toList (5 :: []) =
      grindLoop constHash [] "cyprus1".toList [] (formatBytes32String (natToDecChars 0))
        "abcd".toList [] :=
  ⟨(c9_grind_accepts_matching_salt constHash exShardTable "cyprus1".toList [] 0 "abcd".toList
      constHash_ok (by decide) (by decide)).1 [5] "ab05".toList (by decide) (by rfl),
   (c9_grind_accepts_matching_salt constHash [] "cyprus1".toList [] 0 "abcd".toList
      constHash_ok (by decide) (by decide)).2 (formatBytes32String (natToDecChars 0)) 5 []
      (by rfl)⟩

/-! ### C5 support: values and casing of checksummed strings, ICAP pieces -/

theorem parse_checksumChars (b : Nat) :
    ∀ (d : List Nat) (ls : List Char),
      parseBaseChars b (checksumChars d ls) = parseBaseChars b ls := by
  intro d ls
  induction d, ls using checksumChars.induct with
  | case1 h hs c1 c2 cs ih =>
    rw [checksumChars]
    rw [parseBaseChars_cons, parseBaseChars_cons, parseBaseChars_cons, parseBaseChars_cons]
    have hv1 : charDigitVal (if 8 ≤ h / 16 then toUpperChar c1 else c1) = charDigitVal c1 := by
      split_ifs
      · exact charDigitVal_toUpper c1
      · rfl
    have hv2 : charDigitVal (if 8 ≤ h % 16 then toUpperChar c2 else c2) = charDigitVal c2 := by
      split_ifs
      · exact charDigitVal_toUpper c2
      · rfl
    rw [hv1, hv2, ih]
    have hlen : (checksumChars hs cs).length = cs.length := checksumChars_length hs cs
    rw [List.length_cons, List.length_cons, hlen]
  | case2 d ls h =>
    have heq : checksumChars d ls = ls := by
      rw [checksumChars.eq_def]
      rcases d with _ | ⟨x, xs⟩
      · rfl
      · rcases ls with _ | ⟨c1, _ | ⟨c2, cs⟩⟩
        · rfl
        · rfl
        · exact absurd rfl (fun he => h x xs c1 c2 cs rfl he)
    rw [heq]

theorem toUpperChar_idem (c : Char) : toUpperChar (toUpperChar c) = toUpperChar c := by
  apply char_eq_of_toNat
  simp only [toUpperChar_toNat]
  split_ifs <;> omega

theorem natToBaseChars_ne_nil (b n : Nat) : natToBaseChars b n ≠ [] := by
  unfold natToBaseChars natToBaseCharsGo
  split_ifs
  · simp
  · simp

theorem padTwo_shape (c : Nat) (hclt : c < 100) :
    ∃ e1 e2, padLeftChars '0' 2 (natToDecChars c) = [e1, e2] ∧
      isDigitC e1 = true ∧ isDigitC e2 = true := by
  have hlen : (natToDecChars c).length ≤ 2 :=
    natToBaseChars_length_le (by omega) (by omega)
      (by rw [show (10 : Nat) ^ 2 = 100 by norm_num]; exact hclt)
  have hne : natToDecChars c ≠ [] := natToBaseChars_ne_nil 10 c
  have hdig := natToDecChars_digits c
  rcases hd : natToDecChars c with _ | ⟨x, _ | ⟨y, rest⟩⟩
  · exact absurd hd hne
  · refine ⟨'0', x, ?_, by decide, hdig x (by rw [hd]; exact List.mem_cons_self _ _)⟩
    unfold padLeftChars
    rfl
  · have hrest : rest = [] := by
      rw [hd] at hlen
      simp only [List.length_cons] at hlen
      rcases rest with _ | ⟨z, zs⟩
      · rfl
      · simp at hlen
    subst hrest
    refine ⟨x, y, ?_, hdig x (by rw [hd]; exact List.mem_cons_self _ _),
      hdig y (by rw [hd]; exact List.mem_cons_of_mem _ (List.mem_cons_self _ _))⟩
    unfold padLeftChars
    rfl

theorem ibanChecksum_shape (s : List Char) :
    ∃ e1 e2, ibanChecksum s = [e1, e2] ∧ isDigitC e1 = true ∧ isDigitC e2 = true := by
  unfold ibanChecksum
  dsimp only
  exact padTwo_shape _ (by omega)

theorem ibanChecksum_drops_checksum (c1 c2 d1 d2 : Char) (p : List Char) :
    ibanChecksum ('X' :: 'E' :: c1 :: c2 :: p) = ibanChecksum ('X' :: 'E' :: d1 :: d2 :: p) := by
  rfl

theorem payload_toUpper_fixed (b36 : List Char) (k : Nat) :
    (List.replicate k '0' ++ b36.map toUpperChar).map toUpperChar =
      List.replicate k '0' ++ b36.map toUpperChar := by
  rw [List.map_append, List.map_map, List.map_replicate]
  congr 1
  exact List.map_congr_left (fun c _ => toUpperChar_idem c)

theorem matchesHexAddr_XE (t : List Char) : matchesHexAddr ('X' :: 'E' :: t) = false := by
  unfold matchesHexAddr
  have h1 : isHexDigitC 'X' = false := by decide
  simp [h1]

theorem matchesIcap_intro {e1 e2 : Char} {payload : List Char}
    (h1 : isDigitC e1 = true) (h2 : isDigitC e2 = true)
    (hall : ∀ c ∈ payload, isAlnumC c = true)
    (hlen : payload.length = 30 ∨ payload.length = 31) :
    matchesIcap ('X' :: 'E' :: e1 :: e2 :: payload) = true := by
  unfold matchesIcap
  simp only [h1, h2, Bool.and_eq_true, List.all_eq_true, Bool.or_eq_true, beq_iff_eq,
    Bool.true_and]
  exact ⟨hall, hlen⟩

theorem isAlnumC_toUpper {c : Char} (h : isAlnumC c = true) :
    isAlnumC (toUpperChar c) = true := by
  rw [isAlnumC_iff] at h ⊢
  rw [toUpperChar_toNat]
  rcases h with h' | h' | h' <;> split_ifs <;> omega

theorem getAddress_icap_payload (hash : List Nat → List Nat) (hh : HashOK hash)
    {ls : List Char} (hlen : ls.length = 40) (hhex : ∀ c ∈ ls, isLowerHexC c = true) :
    getAddress hash ('X' :: 'E' ::
      (ibanChecksum (['X', 'E', '0', '0'] ++
        padLeftChars '0' 30 ((natToBaseChars 36 (parseBaseChars 16 ls)).map toUpperChar)) ++
      padLeftChars '0' 30 ((natToBaseChars 36 (parseBaseChars 16 ls)).map toUpperChar))) =
      .ok (canonChecksum hash ls) := by
  have hvals : ∀ c ∈ ls, charDigitVal c < 16 := fun c hc =>
    charDigitVal_lt_16 (isLowerHexC_isHexDigitC (hhex c hc))
  have hv40 : parseBaseChars 16 ls < 16 ^ 40 := by
    have := parseBaseChars_lt (by omega : 1 ≤ 16) hvals
    rw [hlen] at this
    exact this
  have hvlt : parseBaseChars 16 ls < 36 ^ 31 := by
    have hp : (16 : Nat) ^ 40 < 36 ^ 31 := by norm_num
    omega
  have hb36len : (natToBaseChars 36 (parseBaseChars 16 ls)).length ≤ 31 :=
    natToBaseChars_length_le (by omega) (by omega) hvlt
  have hmaplen : ((natToBaseChars 36 (parseBaseChars 16 ls)).map toUpperChar).length ≤ 31 := by
    rw [List.length_map]
    exact hb36len
  have hplen : (padLeftChars '0' 30
      ((natToBaseChars 36 (parseBaseChars 16 ls)).map toUpperChar)).length = 30 ∨
      (padLeftChars '0' 30
        ((natToBaseChars 36 (parseBaseChars 16 ls)).map toUpperChar)).length = 31 := by
    unfold padLeftChars
    rw [List.length_append, List.length_replicate]
    omega
  have hpalnum : ∀ c ∈ padLeftChars '0' 30
      ((natToBaseChars 36 (parseBaseChars 16 ls)).map toUpperChar), isAlnumC c = true := by
    intro c hc
    unfold padLeftChars at hc
    rcases List.mem_append.mp hc with hc | hc
    · rw [List.eq_of_mem_replicate hc]
      decide
    · rw [List.mem_map] at hc
      obtain ⟨x, hx, hcx⟩ := hc
      obtain ⟨d, hd, hxd⟩ := natToBaseChars_mem (by omega) _ x hx
      rw [← hcx, hxd]
      exact isAlnumC_toUpper (isAlnumC_digitCharOf hd)
  obtain ⟨e1, e2, hcs, h1, h2⟩ := ibanChecksum_shape (['X', 'E', '0', '0'] ++
    padLeftChars '0' 30 ((natToBaseChars 36 (parseBaseChars 16 ls)).map toUpperChar))
  rw [hcs]
  show getAddress hash ('X' :: 'E' :: e1 :: e2 ::
    padLeftChars '0' 30 ((natToBaseChars 36 (parseBaseChars 16 ls)).map toUpperChar)) = _
  unfold getAddress
  rw [if_neg (by rw [matchesHexAddr_XE]; decide)]
  rw [if_pos (matchesIcap_intro h1 h2 hpalnum hplen)]
  have hcheck : (('X' :: 'E' :: e1 :: e2 ::
      padLeftChars '0' 30 ((natToBaseChars 36 (parseBaseChars 16 ls)).map toUpperChar)).drop 2).take 2 =
      ibanChecksum ('X' :: 'E' :: e1 :: e2 ::
        padLeftChars '0' 30 ((natToBaseChars 36 (parseBaseChars 16 ls)).map toUpperChar)) := by
    rw [ibanChecksum_drops_checksum e1 e2 '0' '0', show ('X' :: 'E' :: '0' :: '0' ::
      padLeftChars '0' 30 ((natToBaseChars 36 (parseBaseChars 16 ls)).map toUpperChar)) =
      ['X', 'E', '0', '0'] ++
        padLeftChars '0' 30 ((natToBaseChars 36 (parseBaseChars 16 ls)).map toUpperChar) from rfl,
      hcs]
    rfl
  rw [if_neg (by rw [hcheck]; exact fun hne => hne rfl)]
  dsimp only
  have hdrop : ('X' :: 'E' :: e1 :: e2 ::
      padLeftChars '0' 30 ((natToBaseChars 36 (parseBaseChars 16 ls)).map toUpperChar)).drop 4 =
      padLeftChars '0' 30 ((natToBaseChars 36 (parseBaseChars 16 ls)).map toUpperChar) := rfl
  rw [hdrop]
  have hparse : parseBaseChars 36 (padLeftChars '0' 30
      ((natToBaseChars 36 (parseBaseChars 16 ls)).map toUpperChar)) = parseBaseChars 16 ls := by
    unfold padLeftChars
    rw [parseBaseChars_replicate_zero, parseBaseChars_map_toUpper,
      parse_natToBaseChars (by omega) (by omega)]
  rw [hparse]
  have hlsne : ls ≠ [] := by
    intro hnil
    rw [hnil] at hlen
    cases hlen
  have hcanon : ∀ c ∈ ls, digitCharOf (charDigitVal c) = c := fun c hc =>
    digitCharOf_charDigitVal (hhex c hc)
  have hpad : padLeftChars '0' 40 (natToBaseChars 16 (parseBaseChars 16 ls)) = ls := by
    have := padLeft_natToBase_parse (by omega : 2 ≤ 16) (by omega) hlsne hvals hcanon
    rw [hlen] at this
    exact this
  rw [hpad]
  rw [getChecksumAddress_ok hash hlen (fun c hc => isLowerHexC_isHexDigitC (hhex c hc)),
    map_toLower_id_of_lowerHex hhex]

/-- C5: round trips.  For every 20-byte value, `getAddress` of its mixed-case
checksum string returns the identical string; and for every accepted input,
`getAddress (getIcapAddress input)` equals `getAddress input`. -/
theorem c5_roundtrip (hash : List Nat → List Nat) (hh : HashOK hash) :
    (∀ bytes : List Nat, bytes.length = 20 → (∀ b ∈ bytes, b < 256) →
      getAddress hash (mixedCaseChecksumSpec hash bytes) =
        .ok (mixedCaseChecksumSpec hash bytes)) ∧
    (∀ input r : List Char, getAddress hash input = .ok r →
      ∃ icap, getIcapAddress hash input = .ok icap ∧ getAddress hash icap = .ok r) := by
  constructor
  · intro bytes hlen hbytes
    have h40 : (toHexString bytes).length = 40 := by
      rw [toHexString_length, hlen]
    have heq : mixedCaseChecksumSpec hash bytes = canonChecksum hash (toHexString bytes) := by
      rw [canonChecksum_eq_spec hh h40 (toHexString_mem_lowerHex _),
        toByteArray_toHexString hbytes]
    rw [heq]
    exact getAddress_of_canon hash h40 (toHexString_mem_lowerHex _)
  · intro input r h
    obtain ⟨ls, hlen, hhex, hr⟩ := getAddress_shape h
    refine ⟨'X' :: 'E' ::
      (ibanChecksum (['X', 'E', '0', '0'] ++
        padLeftChars '0' 30 ((natToBaseChars 36 (parseBaseChars 16 (r.drop 2))).map toUpperChar)) ++
      padLeftChars '0' 30 ((natToBaseChars 36 (parseBaseChars 16 (r.drop 2))).map toUpperChar)),
      ?_, ?_⟩
    · unfold getIcapAddress
      rw [h]
    · have hparse : parseBaseChars 16 (r.drop 2) = parseBaseChars 16 ls := by
        rw [hr]
        show parseBaseChars 16 (checksumChars _ ls) = _
        exact parse_checksumChars 16 _ ls
      rw [hparse, hr]
      exact getAddress_icap_payload hash hh hlen hhex

/-- Witness for C5 at a concrete hash, byte value and address. -/
theorem c5_roundtrip_witness :
    getAddress constHash (mixedCaseChecksumSpec constHash (List.replicate 20 0)) =
        .ok (mixedCaseChecksumSpec constHash (List.replicate 20 0)) ∧
      ∃ icap, getIcapAddress constHash zeroAddr = .ok icap ∧
        getAddress constHash icap = .ok zeroAddr :=
  ⟨(c5_roundtrip constHash constHash_ok).1 (List.replicate 20 0) (by simp)
      (fun b hb => by rw [List.eq_of_mem_replicate hb]; omega),
   (c5_roundtrip constHash constHash_ok).2 zeroAddr zeroAddr (by rfl)⟩
